import Mathlib

/-!
Verification development for the snippet-mirror generation pipeline
(`scripts/generate-snippet-mirror.js` and `scripts/generate-all-snippet-mirrors.js`).

Strings are modelled as `List Char` (`Str`).  JavaScript string primitives used
by the scripts (`split`/`join`, `slice`, `trim`, `toLowerCase`, regex suffix
replacement, the two regex tokenizers) are embedded as executable Lean
functions below.  Recursions that are not structural are written with an
explicit fuel argument equal to the input length, so that all definitions
compute by kernel reduction.
-/

set_option maxHeartbeats 1000000

abbrev Str := List Char

/-- Convert a Lean string literal to the `List Char` representation. -/
def str (s : String) : Str := s.data

/-- The backtick character, U+0060. -/
def backtick : Char := Char.ofNat 96

/-- The opening curly brace character, U+007B. -/
def lbrace : Char := Char.ofNat 123

/-- The closing curly brace character, U+007D. -/
def rbrace : Char := Char.ofNat 125

/-- A single space character. -/
def spaceChar : Char := ' '

/-- JavaScript whitespace class: the characters matched by the regex class
backslash-s and removed by `String.prototype.trim` (ASCII whitespace plus the
Unicode space separators, LS, PS, NBSP, NNBSP, MMSP, ideographic space and the
BOM). -/
def isJsWs (c : Char) : Bool :=
  c = ' ' || c = Char.ofNat 9 || c = Char.ofNat 10 || c = Char.ofNat 11 ||
  c = Char.ofNat 12 || c = Char.ofNat 13 || c = Char.ofNat 0xa0 ||
  c = Char.ofNat 0x1680 ||
  (Char.ofNat 0x2000 ≤ c && c ≤ Char.ofNat 0x200a) ||
  c = Char.ofNat 0x2028 || c = Char.ofNat 0x2029 || c = Char.ofNat 0x202f ||
  c = Char.ofNat 0x205f || c = Char.ofNat 0x3000 || c = Char.ofNat 0xfeff

/-- JavaScript `String.prototype.trim`: drop leading and trailing whitespace. -/
def jsTrim (s : Str) : Str :=
  ((s.dropWhile isJsWs).reverse.dropWhile isJsWs).reverse

/-- The regex test `^\s*$`: the string consists only of whitespace. -/
def isAllWs (s : Str) : Bool := s.all isJsWs

/-- ASCII lower-casing of one character (the fragment of JavaScript
`toLowerCase` exercised by the scripts, which only lower-case ASCII path and
format strings). -/
def asciiLower (c : Char) : Char :=
  if 'A' ≤ c ∧ c ≤ 'Z' then Char.ofNat (c.toNat + 32) else c

/-- JavaScript `String.prototype.toLowerCase` on ASCII data. -/
def lowerStr (s : Str) : Str := s.map asciiLower

/-- `docxPath.replace(/\\/g,'/')`: turn every backslash into a forward slash. -/
def normalizeSlashes (s : Str) : Str :=
  s.map (fun c => if c = '\\' then '/' else c)

/-- JavaScript `String.prototype.split` on a single separator character
(`rel.split('/')`); `"".split('/')` is `[""]`. -/
def splitOnChar (sep : Char) : Str → List Str
  | [] => [[]]
  | c :: cs =>
    let r := splitOnChar sep cs
    if c = sep then [] :: r
    else
      match r with
      | h :: t => (c :: h) :: t
      | [] => [[c]]

/-- Join path components with `/` (the posix `Array.prototype.flatten('/')`). -/
def renderPath : List Str → Str
  | [] => []
  | [c] => c
  | c :: cs => c ++ '/' :: renderPath cs

/-- JavaScript `s.split(pat).flatten(rep)` for a nonempty literal `pat`:
replace every leftmost non-overlapping occurrence of `pat` by `rep`.
Fuel-indexed so the definition computes by kernel reduction; the wrapper
`replaceAll` supplies fuel equal to the input length, which always suffices. -/
def replaceAllFuel (pat rep : Str) : Nat → Str → Str
  | _, [] => []
  | 0, s => s
  | fuel + 1, c :: cs =>
    if pat ≠ [] ∧ pat.isPrefixOf (c :: cs) then
      rep ++ replaceAllFuel pat rep fuel ((c :: cs).drop pat.length)
    else
      c :: replaceAllFuel pat rep fuel cs

/-- JavaScript `s.split(pat).flatten(rep)`. -/
def replaceAll (pat rep : Str) (s : Str) : Str :=
  replaceAllFuel pat rep s.length s

/-- `rel.replace(/\.docx$/i, ext)`: if the string ends (case-insensitively)
with `.docx`, replace that suffix by `ext`, else leave it unchanged. -/
def replaceDocxSuffix (rel : Str) (ext : Str) : Str :=
  if (str ".docx").isSuffixOf (lowerStr rel) then rel.take (rel.length - 5) ++ ext
  else rel

/-- Normalization core of Node's posix `path.normalize`: process the
slash-separated segments left to right; drop empty and `.` segments; `..`
pops the previous segment unless there is none or it is itself `..`. -/
def normSegs (acc : List Str) : List Str → List Str
  | [] => acc
  | seg :: rest =>
    if seg = [] ∨ seg = str "." then normSegs acc rest
    else if seg = str ".." then
      if acc ≠ [] ∧ acc.getLast? ≠ some (str "..") then normSegs acc.dropLast rest
      else normSegs (acc ++ [seg]) rest
    else normSegs (acc ++ [seg]) rest

/-- Node's posix `path.flatten`: drop empty parts, join with `/`, normalize.
(The scripts only join relative paths whose parts neither start nor end with
a slash, so the absolute-path and trailing-slash refinements of Node's
implementation never apply and are not modelled.) -/
def pathJoin (parts : List Str) : Str :=
  let joined := renderPath (parts.filter (fun p => decide (p ≠ [])))
  let segs := normSegs [] (splitOnChar '/' joined)
  if segs = [] then str "." else renderPath segs

/-- A file-system path as its list of components relative to the repo root
(the scripts run from the repo root and build repo-relative paths; we model
`path.resolve` as the identity on these canonical relative paths). -/
abbrev FsPath := List Str

/-- The slice of the real file system the scripts read and mutate: the set of
regular files and the set of directories, each as repo-relative component
paths (file contents are irrelevant to the claims and are not modelled). -/
structure Fs where
  files : List FsPath
  dirs : List FsPath
deriving DecidableEq

/-- Whether a directory exists (`fs.existsSync` on a directory path). -/
def dirExists (fs : Fs) (d : FsPath) : Bool := decide (d ∈ fs.dirs)

/-- All nonempty prefixes of a directory path: the chain of directories that
`fs.mkdirSync(dir, {recursive:true})` guarantees to exist. -/
def ancestorsOf (d : FsPath) : List FsPath :=
  d.inits.filter (fun p => decide (p ≠ []))

/-- `fs.mkdirSync(d, {recursive:true})`. -/
def mkdirRec (d : FsPath) (fs : Fs) : Fs :=
  ⟨fs.files, fs.dirs ++ (ancestorsOf d).filter (fun p => decide (p ∉ fs.dirs))⟩

/-- `fs.writeFileSync(p, ...)`: create or overwrite the file at `p`. -/
def writeFileAt (p : FsPath) (fs : Fs) : Fs :=
  ⟨if p ∈ fs.files then fs.files else fs.files ++ [p], fs.dirs⟩

/-- `fs.readdirSync(d).length`: number of immediate children (files and
directories) of `d`. -/
def dirChildCount (fs : Fs) (d : FsPath) : Nat :=
  (fs.files.filter (fun p => decide (p.dropLast = d))).length +
  (fs.dirs.filter (fun p => decide (p.dropLast = d))).length

/-- JS `array.filter((v,i,a)=>a.indexOf(v)===i)`: keep first occurrences. -/
def dedupFirstAux (seen : List FsPath) : List FsPath → List FsPath
  | [] => []
  | x :: xs =>
    if x ∈ seen then dedupFirstAux seen xs
    else x :: dedupFirstAux (x :: seen) xs

/-- Deduplicate keeping first occurrences. -/
def dedupFirst (l : List FsPath) : List FsPath := dedupFirstAux [] l

/-- Insert into a list sorted by rendered-string length, longest first,
keeping earlier elements first among equals (JS `Array.prototype.sort` is
stable and the scripts sort with the comparator `b.length - a.length`). -/
def insertByLenDesc (x : FsPath) : List FsPath → List FsPath
  | [] => [x]
  | y :: ys =>
    if (renderPath y).length ≤ (renderPath x).length then x :: y :: ys
    else y :: insertByLenDesc x ys

/-- Stable sort by rendered-string length, longest first. -/
def sortByRenderLenDesc : List FsPath → List FsPath
  | [] => []
  | x :: xs => insertByLenDesc x (sortByRenderLenDesc xs)

namespace SnippetMirror

/-- `SENTINEL_PRE='==::'` from generate-snippet-mirror.js. -/
def SENTINEL_PRE : Str := str "==::"

/-- `SENTINEL_POST='::=='` from generate-snippet-mirror.js. -/
def SENTINEL_POST : Str := str "::=="

/-- `isHtmlFormat` from generate-snippet-mirror.js (exact comparison; callers
pass the output of `normalizeFormat`, which already lower-cases). -/
def isHtmlFormat (format : Str) : Bool := format = str "html"

/-- `outputExtensionFor` from generate-snippet-mirror.js. -/
def outputExtensionFor (format : Str) : Str :=
  if isHtmlFormat format then str ".html" else str ".md"

/-- `normalizeFormat` from generate-snippet-mirror.js. -/
def normalizeFormat (format : Str) : Str :=
  let f := lowerStr format
  if f = str "md" then str "gfm"
  else if f = str "markdown" then str "gfm"
  else if f = [] then str "gfm"
  else f

/-- The token stream built by the two merge passes: alternating plain text
and marked spans (`{type:'code'|'curly', value}` in the source; both passes
use the same shape, so one constructor serves both). -/
inductive Token where
  | text (value : Str)
  | code (value : Str)
deriving DecidableEq, Repr

/-- Value carried by a token. -/
def Token.value : Token → Str
  | .text v => v
  | .code v => v

/-- Whether a token is a plain-text token. -/
def Token.isText : Token → Bool
  | .text _ => true
  | .code _ => false

/-- Prepend one character of plain text to a token stream, extending a
leading text token if present (the streams built this way have exactly the
maximal text gaps the regex scan produces). -/
def consText (c : Char) : List Token → List Token
  | .text v :: ts => .text (c :: v) :: ts
  | ts => .text [c] :: ts

/-- Scanning for the closing backtick of a code span: the regex
`` `([^`]+)` `` at a position just after an opening backtick matches when a
nonempty run of non-backtick characters is followed by a backtick.
Returns the span's inner text and the remainder after the closing backtick. -/
def findCloseCode (cs : Str) : Option (Str × Str) :=
  let inner := cs.takeWhile (fun c => c ≠ backtick)
  match inner, cs.dropWhile (fun c => c ≠ backtick) with
  | [], _ => none
  | _, [] => none
  | _, _ :: rest => some (inner, rest)

/-- Step 1 of `mergeAdjacentCodeSpans`: tokenize on the regex
`` `([^`]+)` `` with leftmost non-overlapping matches (fuel-indexed;
`tokenizeCode` supplies sufficient fuel). -/
def tokenizeCodeFuel : Nat → Str → List Token
  | 0, _ => []
  | _, [] => []
  | fuel + 1, c :: cs =>
    if c = backtick then
      match findCloseCode cs with
      | some (inner, rest) => .code inner :: tokenizeCodeFuel fuel rest
      | none => consText c (tokenizeCodeFuel fuel cs)
    else consText c (tokenizeCodeFuel fuel cs)

/-- Tokenization step of `mergeAdjacentCodeSpans`. -/
def tokenizeCode (s : Str) : List Token := tokenizeCodeFuel s.length s

/-- Scanning for the first `..}}` closing a curly block: the lazy regex inner
`[\s\S]*?` stops at the first occurrence of two closing braces.  Returns the
inner text and the remainder after the two closing braces. -/
def findCloseCurly : Str → Option (Str × Str)
  | [] => none
  | c :: cs =>
    if c = rbrace then
      match cs with
      | c2 :: rest =>
        if c2 = rbrace then some ([], rest)
        else (findCloseCurly cs).map (fun p => (c :: p.1, p.2))
      | [] => none
    else (findCloseCurly cs).map (fun p => (c :: p.1, p.2))

/-- Step 1 of `mergeAdjacentHtmlCurlyBlocks`: tokenize on the lazy regex
for double-curly blocks with leftmost non-overlapping matches. -/
def tokenizeCurlyFuel : Nat → Str → List Token
  | 0, _ => []
  | _, [] => []
  | fuel + 1, c :: cs =>
    if c = lbrace then
      match cs with
      | c2 :: cs2 =>
        if c2 = lbrace then
          match findCloseCurly cs2 with
          | some (inner, rest) => .code inner :: tokenizeCurlyFuel fuel rest
          | none => consText c (tokenizeCurlyFuel fuel cs)
        else consText c (tokenizeCurlyFuel fuel cs)
      | [] => consText c (tokenizeCurlyFuel fuel cs)
    else consText c (tokenizeCurlyFuel fuel cs)

/-- Tokenization step of `mergeAdjacentHtmlCurlyBlocks`. -/
def tokenizeCurly (s : Str) : List Token := tokenizeCurlyFuel s.length s

/-- The inner while-loop of step 2 of both merge passes: starting from the
trimmed value of the current marked span, while the next token is
whitespace-only text and the one after it is again a marked span, fold that
span's trimmed value in (space-joined, re-trimmed) and advance past both.
Returns the accumulated value and the unconsumed remainder of the stream. -/
def mergeChain (combined : Str) : List Token → Str × List Token
  | .text w :: .code v :: ts =>
    if isAllWs w then
      mergeChain (jsTrim (combined ++ spaceChar :: jsTrim v)) ts
    else (combined, .text w :: .code v :: ts)
  | ts => (combined, ts)

/-- Step 2 of both merge passes (fuel-indexed; `mergeTokens` supplies
sufficient fuel): text tokens pass through; each marked span starts a
`mergeChain` fold. -/
def mergeTokensFuel : Nat → List Token → List Token
  | 0, ts => ts
  | _, [] => []
  | fuel + 1, .text v :: ts => .text v :: mergeTokensFuel fuel ts
  | fuel + 1, .code v :: ts =>
    let p := mergeChain (jsTrim v) ts
    .code p.1 :: mergeTokensFuel fuel p.2

/-- Step 2 of both merge passes. -/
def mergeTokens (ts : List Token) : List Token := mergeTokensFuel ts.length ts

/-- Step 3 of `mergeAdjacentCodeSpans`: re-emit the stream, wrapping marked
spans in backticks. -/
def rebuildCode : List Token → Str
  | [] => []
  | .text v :: ts => v ++ rebuildCode ts
  | .code v :: ts => backtick :: (v ++ backtick :: rebuildCode ts)

/-- Step 3 of `mergeAdjacentHtmlCurlyBlocks`: re-emit the stream, wrapping
marked spans in double curly braces. -/
def rebuildCurly : List Token → Str
  | [] => []
  | .text v :: ts => v ++ rebuildCurly ts
  | .code v :: ts =>
    lbrace :: lbrace :: (v ++ rbrace :: rbrace :: rebuildCurly ts)

/-- `mergeAdjacentCodeSpans` from generate-snippet-mirror.js. -/
def mergeAdjacentCodeSpans (markdown : Str) : Str :=
  rebuildCode (mergeTokens (tokenizeCode markdown))

/-- `mergeAdjacentHtmlCurlyBlocks` from generate-snippet-mirror.js. -/
def mergeAdjacentHtmlCurlyBlocks (html : Str) : Str :=
  rebuildCurly (mergeTokens (tokenizeCurly html))

/-- `postProcessPandocOutput` from generate-snippet-mirror.js: replace each
sentinel by the target's delimiter (`{{`/`}}` for html, a backtick for
markdown) and run the adjacency merge. -/
def postProcessPandocOutput (raw : Str) (format : Str) : Str :=
  if isHtmlFormat format then
    mergeAdjacentHtmlCurlyBlocks
      (replaceAll SENTINEL_POST [rbrace, rbrace]
        (replaceAll SENTINEL_PRE [lbrace, lbrace] raw))
  else
    mergeAdjacentCodeSpans
      (replaceAll SENTINEL_POST [backtick]
        (replaceAll SENTINEL_PRE [backtick] raw))

/-- The xml2js parse result, as a generic tree: a JavaScript value is
`null`, a string, an array of values, or an object mapping element names to
values (objects keep insertion order and have pairwise distinct keys). -/
inductive XmlValue where
  | null : XmlValue
  | str (s : Str) : XmlValue
  | arr (items : List XmlValue) : XmlValue
  | obj (fields : List (Str × XmlValue)) : XmlValue
deriving Repr

/-- JavaScript property read `fields[key]` on an object. -/
def lookupField (fields : List (Str × XmlValue)) (key : Str) : Option XmlValue :=
  match fields with
  | [] => none
  | (k, v) :: rest => if k = key then some v else lookupField rest key

/-- The `w:instrText` element name. -/
def instrKey : Str := str "w:instrText"

/-- The `w:r` element name. -/
def wrKey : Str := str "w:r"

/-- The `w:t` element name. -/
def wtKey : Str := str "w:t"

/-- The `_` text-content property name produced by xml2js. -/
def underscoreKey : Str := str "_"

mutual

/-- `extractXmlElementTextContent` from generate-snippet-mirror.js: a
best-effort string from a string, an array (concatenation of the parts), or
an object with a string `_` property. -/
def extractXmlElementTextContent : XmlValue → Str
  | .null => []
  | .str s => s
  | .arr items => extractXmlListTextContent items
  | .obj fields =>
    match lookupField fields underscoreKey with
    | some (.str s) => s
    | _ => []

/-- `array.map(extractXmlElementTextContent).join('')`. -/
def extractXmlListTextContent : List XmlValue → Str
  | [] => []
  | v :: vs => extractXmlElementTextContent v ++ extractXmlListTextContent vs

end

/-- The fragments contributed by one `w:instrText` property value inside
`takeFieldInstructionString`'s visitor: for an array, the trimmed nonempty
extractions of its elements in order; otherwise the trimmed extraction when
nonempty. -/
def instrFragsOf (v : XmlValue) : List Str :=
  match v with
  | .arr items =>
    (items.map (fun x => jsTrim (extractXmlElementTextContent x))).filter
      (fun s => decide (s ≠ []))
  | v =>
    if jsTrim (extractXmlElementTextContent v) = [] then []
    else [jsTrim (extractXmlElementTextContent v)]

mutual

/-- The fragment collection of `takeFieldInstructionString`: `visitXml`
visits every object of the tree in pre-order (a node before its children,
children in property order, arrays flattened), and the visitor appends the
fragments of the object's `w:instrText` property if present. -/
def collectInstrTexts : XmlValue → List Str
  | .arr items => collectInstrTextsList items
  | .obj fields =>
    (match lookupField fields instrKey with
     | some v => instrFragsOf v
     | none => []) ++ collectInstrTextsFields fields
  | _ => []

/-- Fragment collection over an array's elements, in order. -/
def collectInstrTextsList : List XmlValue → List Str
  | [] => []
  | v :: vs => collectInstrTexts v ++ collectInstrTextsList vs

/-- Fragment collection over `Object.values`, in property order. -/
def collectInstrTextsFields : List (Str × XmlValue) → List Str
  | [] => []
  | (_, v) :: rest => collectInstrTexts v ++ collectInstrTextsFields rest

end

/-- `instrTexts.join(' ')`. -/
def joinSpace : List Str → Str
  | [] => []
  | [x] => x
  | x :: xs => x ++ spaceChar :: joinSpace xs

/-- The regex replacement `replace(/\s+/g,' ')`: collapse every maximal
whitespace run to a single space (fuel-indexed; `collapseWs` supplies
sufficient fuel). -/
def collapseWsFuel : Nat → Str → Str
  | _, [] => []
  | 0, s => s
  | fuel + 1, c :: cs =>
    if isJsWs c then spaceChar :: collapseWsFuel fuel (cs.dropWhile isJsWs)
    else c :: collapseWsFuel fuel cs

/-- `replace(/\s+/g,' ')`. -/
def collapseWs (s : Str) : Str := collapseWsFuel s.length s

/-- `takeFieldInstructionString` from generate-snippet-mirror.js:
join the collected fragments with single spaces, collapse whitespace runs,
and trim. -/
def takeFieldInstructionString (runLikeObject : XmlValue) : Str :=
  jsTrim (collapseWs (joinSpace (collectInstrTexts runLikeObject)))

/-- The sentinel text injected for a run: the source recomputes
`instr.replace(/\s+/g,' ').trim()` before bracketing it with the sentinels. -/
def sentinelTextFor (instr : Str) : Str :=
  SENTINEL_PRE ++ jsTrim (collapseWs instr) ++ SENTINEL_POST

mutual

/-- The tree rewriting of `injectFieldCodeSentinels` between parsing and
serialization (xml2js parsing and the Builder are outside the model): the
pre-order `visitXml` walk whose visitor, on every object with a `w:r` array,
augments each run object that contains a nonempty field instruction with a
sentinel-wrapped `w:t` leaf.  The visitor runs on a node before the walk
descends into that node's (just-mutated) children; the definitions below
inline the mutation so that every recursive call lands on a subterm of the
original tree. -/
def injectVisit : XmlValue → XmlValue
  | .null => .null
  | .str s => .str s
  | .arr items => .arr (injectVisitList items)
  | .obj fields => .obj (injectFields fields)
termination_by v => 3 * sizeOf v

/-- The walk over an array's elements. -/
def injectVisitList : List XmlValue → List XmlValue
  | [] => []
  | v :: vs => injectVisit v :: injectVisitList vs
termination_by vs => 3 * sizeOf vs

/-- Visitor dispatch on an object's properties: the value of a `w:r`
property is treated as a run collection, every other value is walked
normally. -/
def injectFields : List (Str × XmlValue) → List (Str × XmlValue)
  | [] => []
  | (k, v) :: rest =>
    (k, if k = wrKey then injectRunsValue v else injectVisit v) :: injectFields rest
termination_by fs => 3 * sizeOf fs

/-- A `w:r` property value: an array is a run collection whose elements are
processed as runs; anything else is walked normally (the visitor ignores
non-array `w:r` values). -/
def injectRunsValue : XmlValue → XmlValue
  | .arr runs => .arr (injectRunElems runs)
  | v => injectVisit v
termination_by v => 3 * sizeOf v + 1

/-- The runs of a `w:r` array, in order. -/
def injectRunElems : List XmlValue → List XmlValue
  | [] => []
  | r :: rs => injectRunElem r :: injectRunElems rs
termination_by rs => 3 * sizeOf rs + 1

/-- One element of a run collection: a run object with a nonempty field
instruction is augmented (and then walked); any other element is walked
normally. -/
def injectRunElem : XmlValue → XmlValue
  | .obj rkvs =>
    let instr := takeFieldInstructionString (.obj rkvs)
    if instr = [] then .obj (injectFields rkvs)
    else
      .obj (injectAugmentedFields (sentinelTextFor instr) rkvs ++
        (if (lookupField rkvs wtKey).isSome then []
         else [(wtKey, .arr [.str (sentinelTextFor instr)])]))
  | v => injectVisit v
termination_by v => 3 * sizeOf v + 2

/-- The properties of an augmented run: the `w:t` value receives the
appended sentinel leaf (in place), a nested `w:r` value is processed as a
run collection, everything else is walked; when the run had no `w:t`
property, `injectRunElem` appends the fresh one at the end, matching
JavaScript property-insertion order. -/
def injectAugmentedFields (s : Str) : List (Str × XmlValue) → List (Str × XmlValue)
  | [] => []
  | (k, v) :: rest =>
    (k,
      if k = wtKey then injectAugWt v s
      else if k = wrKey then injectRunsValue v
      else injectVisit v) :: injectAugmentedFields s rest
termination_by fs => 3 * sizeOf fs

/-- `run['w:t']` after augmentation: push onto an existing array, or wrap a
non-array value into a two-element array with the sentinel leaf; the walk
then descends into the pre-existing parts (the fresh string leaf is inert
under the walk). -/
def injectAugWt (v : XmlValue) (s : Str) : XmlValue :=
  match v with
  | .arr items => .arr (injectVisitList items ++ [.str s])
  | v => .arr [injectVisit v, .str s]
termination_by 3 * sizeOf v + 1

end

mutual

/-- Whether a tree contains a `w:r` property anywhere (used to state that the
walk leaves run-free subtrees untouched). -/
def containsWrKey : XmlValue → Bool
  | .arr items => containsWrKeyList items
  | .obj fields => containsWrKeyFields fields
  | _ => false

/-- `containsWrKey` over an array's elements. -/
def containsWrKeyList : List XmlValue → Bool
  | [] => false
  | v :: vs => containsWrKey v || containsWrKeyList vs

/-- `containsWrKey` over an object's properties (a `w:r` key counts). -/
def containsWrKeyFields : List (Str × XmlValue) → Bool
  | [] => false
  | (k, v) :: rest => k = wrKey || containsWrKey v || containsWrKeyFields rest

end

/-- `injectFieldCodeSentinels` from generate-snippet-mirror.js, as the tree
transformation between parse and serialize. -/
def injectFieldCodeSentinels (tree : XmlValue) : XmlValue := injectVisit tree

/-- The visible-text leaves of a run: the `w:t` property read as a list
(absent ↦ none, array ↦ its elements, single value ↦ one leaf). -/
def wtEntries (fields : List (Str × XmlValue)) : List XmlValue :=
  match lookupField fields wtKey with
  | none => []
  | some (.arr items) => items
  | some v => [v]

/-- `mirrorPathForDocx` from generate-snippet-mirror.js: backslashes are
normalized to slashes; a path whose lower-cased form does not start with
`snippets/` raises the invalid-source-path error; otherwise the leading 9
characters are sliced off, the case-insensitive `.docx` suffix is replaced by
the format's extension, and the result is joined under `snippets-mirror`. -/
def mirrorPathForDocx (docxPath format : Str) : Except Str Str :=
  let ext := outputExtensionFor format
  let normalized := normalizeSlashes docxPath
  if ¬ (str "snippets/").isPrefixOf (lowerStr normalized) then
    .error (str "Expected path under snippets/. Got: " ++ docxPath)
  else
    .ok (pathJoin
      (str "snippets-mirror" ::
        splitOnChar '/' (replaceDocxSuffix (normalized.drop 9) ext)))

/-- `ensureDirForFile` from generate-snippet-mirror.js. -/
def ensureDirForFile (filePath : FsPath) (fs : Fs) : Fs :=
  mkdirRec filePath.dropLast fs

/-- The single-document flow `generateSnippetMirror` from
generate-snippet-mirror.js, over the file-system model.  `convOk` abstracts
the fallible external steps (the archive's `word/document.xml` payload, XML
parsing, and the pandoc invocation): when they succeed the post-processed
mirror text is written to the mirror path; when they fail the flow errors
with message `errMsg` after having created the mirror's parent directories
(the source calls `ensureDirForFile` before converting) but without writing
the mirror file.  The temporary archive lives outside the repo tree and is
always removed, so it does not appear in the model. -/
def generateSnippetMirror (convOk : Bool) (errMsg : Str)
    (docxPath formatRaw : Str) (fs : Fs) : Except Str Str × Fs :=
  let format := normalizeFormat formatRaw
  match mirrorPathForDocx docxPath format with
  | .error e => (.error e, fs)
  | .ok mirrorPath =>
    let fs₁ := ensureDirForFile (splitOnChar '/' mirrorPath) fs
    if convOk then (.ok mirrorPath, writeFileAt (splitOnChar '/' mirrorPath) fs₁)
    else (.error errMsg, fs₁)

end SnippetMirror

namespace GenerateAll

/-- `isHtmlFormat` from generate-all-snippet-mirrors.js (this version
lower-cases its argument). -/
def isHtmlFormat (format : Str) : Bool := lowerStr format = str "html"

/-- `outputExtensionFor` from generate-all-snippet-mirrors.js. -/
def outputExtensionFor (format : Str) : Str :=
  if isHtmlFormat format then str ".html" else str ".md"

/-- `normalizeFormat` from generate-all-snippet-mirrors.js. -/
def normalizeFormat (format : Str) : Str :=
  let f := lowerStr format
  if f = str "md" then str "gfm"
  else if f = str "markdown" then str "gfm"
  else if f = [] then str "gfm"
  else f

/-- `walkFiles` from generate-all-snippet-mirrors.js: every file strictly
below `dir`, in stored (depth-first) order; a nonexistent directory yields
the empty list. -/
def walkFiles (dir : FsPath) (fs : Fs) : List FsPath :=
  fs.files.filter (fun p => dir.isPrefixOf p && decide (dir.length < p.length))

/-- `listDocxFilesUnderSnippets` from generate-all-snippet-mirrors.js. -/
def listDocxFilesUnderSnippets (fs : Fs) : List FsPath :=
  (walkFiles [str "snippets"] fs).filter
    (fun p => (str ".docx").isSuffixOf (lowerStr (renderPath p)))

/-- `mirrorPathForDocx` from generate-all-snippet-mirrors.js (unlike the
single-document version, this one performs no source-root check). -/
def mirrorPathForDocx (docxPath format : Str) : Str :=
  let ext := outputExtensionFor format
  let normalized := normalizeSlashes docxPath
  pathJoin
    (str "snippets-mirror" ::
      splitOnChar '/' (replaceDocxSuffix (normalized.drop 9) ext))

/-- `listMirrorFiles` from generate-all-snippet-mirrors.js. -/
def listMirrorFiles (format : Str) (fs : Fs) : List FsPath :=
  (walkFiles [str "snippets-mirror"] fs).filter
    (fun p => (lowerStr (outputExtensionFor format)).isSuffixOf
      (lowerStr (renderPath p)))

/-- `cleanMirrorOutput` from generate-all-snippet-mirrors.js: delete the
subfolders of the output root (with everything below them), keeping files
directly at the root. -/
def cleanMirrorOutput (fs : Fs) : Fs :=
  let root : FsPath := [str "snippets-mirror"]
  if root ∈ fs.dirs then
    ⟨fs.files.filter (fun p => decide ¬(root <+: p ∧ 3 ≤ p.length)),
     fs.dirs.filter (fun d => decide ¬(root <+: d ∧ 2 ≤ d.length))⟩
  else fs

/-- The expected mirror path of one source document, as components:
`path.resolve(mirrorPathForDocx(docx, format))` in the source (resolution is
the identity on our canonical repo-relative paths). -/
def mirrorComponentsFor (format : Str) (docx : FsPath) : FsPath :=
  splitOnChar '/' (mirrorPathForDocx (renderPath docx) format)

/-- `removeStaleMirrors` from generate-all-snippet-mirrors.js.  First pass:
delete every mirror file (file with the format's extension, strictly below
the output root) at depth greater than zero whose path is not the expected
mirror path of any current source document.  Second pass: for each directory
holding a surviving file (deepest path string first) that exists and has no
children, remove it — note the candidate list is computed from the parents of
the files that survive, exactly as in the source.  (The source guards the
second pass with `d === path.resolve('snippets-mirror')`, comparing a
repo-relative path against an absolute one; under resolution-as-identity this
is the `d = root` test below.  Either reading yields the same result, since
every candidate directory directly contains a surviving file.) -/
def removeStaleMirrors (docxFiles : List FsPath) (format : Str) (fs : Fs) : Fs :=
  let expected := docxFiles.map (mirrorComponentsFor format)
  let mirrors := listMirrorFiles format fs
  let root : FsPath := [str "snippets-mirror"]
  let files2 := fs.files.filter
    (fun p => decide ¬(p ∈ mirrors ∧ 3 ≤ p.length ∧ p ∉ expected))
  let survivors := files2.filter
    (fun p => root.isPrefixOf p && decide (root.length < p.length))
  let sorted := sortByRenderLenDesc (dedupFirst (survivors.map (fun p => p.dropLast)))
  let dirs2 := sorted.foldl
    (fun ds d =>
      if d = root then ds
      else if d ∈ ds ∧ dirChildCount ⟨files2, ds⟩ d = 0 then
        ds.filter (fun x => decide (x ≠ d))
      else ds)
    fs.dirs
  ⟨files2, dirs2⟩

/-- The per-document loop of `generateAllMirrors`: run the single-document
flow on each discovered document, continuing past failures and collecting
`(document, error-message)` pairs. -/
def generateAllMirrorsLoop (convOk : FsPath → Bool) (errOf : FsPath → Str)
    (format : Str) : List FsPath → Fs → List (FsPath × Str) → Fs × List (FsPath × Str)
  | [], fs, failures => (fs, failures)
  | d :: ds, fs, failures =>
    let r := SnippetMirror.generateSnippetMirror (convOk d) (errOf d)
      (renderPath d) format fs
    match r.1 with
    | .ok _ => generateAllMirrorsLoop convOk errOf format ds r.2 failures
    | .error e => generateAllMirrorsLoop convOk errOf format ds r.2 (failures ++ [(d, e)])

/-- `generateAllMirrors` from generate-all-snippet-mirrors.js: enumerate the
source documents, run the per-document loop, then always reconcile the mirror
tree against the enumerated documents.  Returns the resulting file system,
the document list and the failure pairs. -/
def generateAllMirrors (convOk : FsPath → Bool) (errOf : FsPath → Str)
    (format : Str) (fs : Fs) : Fs × List FsPath × List (FsPath × Str) :=
  let docxFiles := listDocxFilesUnderSnippets fs
  let r := generateAllMirrorsLoop convOk errOf format docxFiles fs []
  (removeStaleMirrors docxFiles format r.1, docxFiles, r.2)

/-- `main` from generate-all-snippet-mirrors.js, as an exit-code/state
function: exit 2 when the source root is missing; otherwise create the
output root, optionally clean it, run the batch, and exit 1 exactly when at
least one document failed (falling off `main` without an explicit
`process.exit` is exit 0). -/
def mainModel (convOk : FsPath → Bool) (errOf : FsPath → Str)
    (formatArg : Str) (clean : Bool) (fs : Fs) : Nat × Fs :=
  let format := normalizeFormat formatArg
  if [str "snippets"] ∉ fs.dirs then (2, fs)
  else
    let fs₁ := mkdirRec [str "snippets-mirror"] fs
    let fs₂ := if clean then cleanMirrorOutput fs₁ else fs₁
    let r := generateAllMirrors convOk errOf format fs₂
    (if r.2.2 ≠ [] then 1 else 0, r.1)

end GenerateAll

/-! ### Specification-side definitions and concrete inputs used by the
claim theorems. -/

/-- A canonical path component as a real directory walk produces it:
nonempty, not `.` or `..`, and free of path separators.  Restricting to such
components makes `path.join`'s normalization the identity. -/
def goodComp (c : Str) : Bool :=
  decide (c ≠ []) && decide (c ≠ str ".") && decide (c ≠ str "..") &&
  decide ('/' ∉ c) && decide ('\\' ∉ c)

/-- A file system whose file paths are nonempty lists of canonical
components. -/
def CanonicalFs (fs : Fs) : Prop :=
  ∀ f ∈ fs.files, f ≠ [] ∧ ∀ c ∈ f, goodComp c = true

/-- Specification-side inverse of the path mapping, following the spec's
words: substitute the source root back for the output root and the source
extension back for the format extension. -/
def specBackSubstitute (mirrorPath : Str) (format : Str) : Str :=
  let ext := GenerateAll.outputExtensionFor format
  let rel := mirrorPath.drop (str "snippets-mirror/").length
  str "snippets/" ++ rel.take (rel.length - ext.length) ++ str ".docx"

/-- A backtick-delimited code span, as the markup merge pass re-emits it. -/
def codeSpanOf (v : Str) : Str := backtick :: v ++ [backtick]

/-- A double-curly block, as the HTML merge pass re-emits it. -/
def curlySpanOf (v : Str) : Str := lbrace :: lbrace :: v ++ [rbrace, rbrace]

/-- A chain of marked spans: the first span's content, then alternating
separator texts and further span contents. -/
def chainWith (span : Str → Str) (v0 : Str) : List (Str × Str) → Str
  | [] => span v0
  | (w, v) :: rest => span v0 ++ w ++ chainWith span v rest

/-- Markdown input for the idempotence failing input: a backtick, a space, a
backtick, the letter a, a space and a backtick. -/
def sC3md : Str := [backtick, ' ', backtick, 'a', ' ', backtick]

/-- HTML input for the idempotence failing input: two opening braces, the
letter a, a space, a closing brace, a space and two closing braces. -/
def sC3html : Str := [lbrace, lbrace, 'a', ' ', rbrace, ' ', rbrace, rbrace]

/-- Mirror tree for the empty-directory failing input: one stale mirror file
in a subdirectory of the output root, and no source documents. -/
def fsC1 : Fs :=
  ⟨[[str "snippets-mirror", str "a", str "x.md"]],
   [[str "snippets-mirror"], [str "snippets-mirror", str "a"]]⟩

/-- Source tree for the reconciliation counterexample: one source document in
a subdirectory, no mirror tree yet. -/
def fsC6 : Fs :=
  ⟨[[str "snippets", str "a", str "x.docx"]],
   [[str "snippets"], [str "snippets", str "a"]]⟩

/-- The run of the sentinel-formula counterexample: a single field
instruction whose text fragment `a  b` contains a double internal space. -/
def runC5 : SnippetMirror.XmlValue :=
  .obj [(SnippetMirror.instrKey, .arr [.str (str "a  b")])]

/-- A tree holding `runC5` inside a run collection. -/
def parentC5 : SnippetMirror.XmlValue :=
  .obj [(SnippetMirror.wrKey, .arr [runC5])]

/-- A state in which a source document coexists with its previously generated
mirror file. -/
def fsC10 : Fs :=
  ⟨[[str "snippets", str "a", str "x.docx"], [str "snippets-mirror", str "a", str "x.md"]],
   [[str "snippets"], [str "snippets", str "a"],
    [str "snippets-mirror"], [str "snippets-mirror", str "a"]]⟩

/-- A string that the JavaScript trim leaves unchanged: nonempty, with a
non-whitespace first and last character.  The merge passes' running combined
value always has this shape. -/
def TrimFix (s : Str) : Prop :=
  s ≠ [] ∧ (∀ c cs, s = c :: cs → isJsWs c = false) ∧
    (∀ ds d, s = ds ++ [d] → isJsWs d = false)

/-- Absence of a marker: the string `q` never occurs as a contiguous
substring of `s`. -/
def NoOcc (q s : Str) : Prop := ¬ q <:+: s

/-- A token stream without two adjacent plain-text tokens, the shape every
regex tokenization produces (text gaps are maximal). -/
def noTT : List SnippetMirror.Token → Bool
  | t1 :: t2 :: ts => !(t1.isText && t2.isText) && noTT (t2 :: ts)
  | _ => true

/-! ### Lemmas and claim theorems. -/

theorem renderPath_cons (c : Str) (cs : List Str) (h : cs ≠ []) :
    renderPath (c :: cs) = c ++ '/' :: renderPath cs := by
  cases cs with
  | nil => exact absurd rfl h
  | cons d ds => rfl

theorem splitOnChar_ne_nil (sep : Char) (s : Str) : splitOnChar sep s ≠ [] := by
  cases s with
  | nil => simp [splitOnChar]
  | cons c cs =>
    simp only [splitOnChar]
    split
    · simp
    · cases h : splitOnChar sep cs <;> simp

theorem splitOnChar_no_sep (sep : Char) (s : Str) (h : sep ∉ s) :
    splitOnChar sep s = [s] := by
  induction s with
  | nil => rfl
  | cons c cs ih =>
    simp only [List.mem_cons, not_or] at h
    simp only [splitOnChar, if_neg (Ne.symm h.1), ih h.2]

theorem splitOnChar_sep_append (sep : Char) (x t : Str) (h : sep ∉ x) :
    splitOnChar sep (x ++ sep :: t) = x :: splitOnChar sep t := by
  induction x with
  | nil => simp [splitOnChar]
  | cons c cs ih =>
    simp only [List.mem_cons, not_or] at h
    simp only [List.cons_append, splitOnChar, if_neg (Ne.symm h.1), List.append_eq, ih h.2]

theorem splitOnChar_renderPath (comps : List Str) (h : comps ≠ [])
    (hc : ∀ c ∈ comps, '/' ∉ c) :
    splitOnChar '/' (renderPath comps) = comps := by
  induction comps with
  | nil => exact absurd rfl h
  | cons x rest ih =>
    cases rest with
    | nil =>
      exact splitOnChar_no_sep '/' x (hc x (by simp))
    | cons y ys =>
      rw [renderPath_cons x (y :: ys) (by simp)]
      rw [splitOnChar_sep_append '/' x _ (hc x (by simp))]
      rw [ih (by simp) (fun c hcm => hc c (by simp [hcm]))]

theorem normSegs_id (comps : List Str) (acc : List Str)
    (h : ∀ c ∈ comps, c ≠ [] ∧ c ≠ str "." ∧ c ≠ str "..") :
    normSegs acc comps = acc ++ comps := by
  induction comps generalizing acc with
  | nil => simp [normSegs]
  | cons x rest ih =>
    obtain ⟨h1, h2, h3⟩ := h x (by simp)
    have hc1 : ¬(x = [] ∨ x = str ".") := by
      rintro (h' | h')
      · exact h1 h'
      · exact h2 h'
    simp only [normSegs, if_neg hc1, if_neg h3]
    rw [ih (acc ++ [x]) (fun c hcm => h c (by simp [hcm]))]
    simp

theorem goodComp_spec (c : Str) (h : goodComp c = true) :
    c ≠ [] ∧ c ≠ str "." ∧ c ≠ str ".." ∧ '/' ∉ c ∧ '\\' ∉ c := by
  simp only [goodComp, Bool.and_eq_true, decide_eq_true_eq] at h
  exact ⟨h.1.1.1.1, h.1.1.1.2, h.1.1.2, h.1.2, h.2⟩

theorem pathJoin_good (parts : List Str) (h : parts ≠ [])
    (hg : ∀ p ∈ parts, goodComp p = true) :
    pathJoin parts = renderPath parts := by
  have h1 := List.filter_eq_self.2
    (fun p hp => decide_eq_true (goodComp_spec p (hg p hp)).1)
  have h2 := splitOnChar_renderPath parts h
    (fun p hp => (goodComp_spec p (hg p hp)).2.2.2.1)
  have h3 := normSegs_id parts []
    (fun p hp => ⟨(goodComp_spec p (hg p hp)).1, (goodComp_spec p (hg p hp)).2.1,
     (goodComp_spec p (hg p hp)).2.2.1⟩)
  simp only [pathJoin, h1, h2, h3, List.nil_append, if_neg h]

theorem renderPath_append_last (init : List Str) (a b : Str) :
    renderPath (init ++ [a ++ b]) = renderPath (init ++ [a]) ++ b := by
  induction init with
  | nil => rfl
  | cons x xs ih =>
    rw [List.cons_append, List.cons_append, renderPath_cons x _ (by simp),
      renderPath_cons x _ (by simp), ih]
    simp

theorem mem_renderPath (c : Char) (comps : List Str) (h : c ∈ renderPath comps) :
    c = '/' ∨ ∃ p ∈ comps, c ∈ p := by
  induction comps with
  | nil => simp [renderPath] at h
  | cons x rest ih =>
    cases rest with
    | nil => exact Or.inr ⟨x, by simp, h⟩
    | cons y ys =>
      rw [renderPath_cons x _ (by simp)] at h
      rcases List.mem_append.1 h with h1 | h2
      · exact Or.inr ⟨x, by simp, h1⟩
      · rcases List.mem_cons.1 h2 with rfl | h3
        · exact Or.inl rfl
        · rcases ih h3 with h4 | ⟨p, hp, hcp⟩
          · exact Or.inl h4
          · exact Or.inr ⟨p, by simp [hp], hcp⟩

theorem normalizeSlashes_id (s : Str) (h : '\\' ∉ s) : normalizeSlashes s = s := by
  induction s with
  | nil => rfl
  | cons c cs ih =>
    simp only [List.mem_cons, not_or] at h
    simp only [normalizeSlashes, List.map_cons] at ih ⊢
    rw [if_neg (Ne.symm h.1)]
    exact congrArg (c :: ·) (ih h.2)

theorem outputExtensionFor_cases (f : Str) :
    GenerateAll.outputExtensionFor f = str ".md" ∨
    GenerateAll.outputExtensionFor f = str ".html" := by
  unfold GenerateAll.outputExtensionFor
  split
  · exact Or.inr rfl
  · exact Or.inl rfl

theorem goodComp_swap (ln ext : Str) (hln : goodComp ln = true)
    (hext : ext = str ".md" ∨ ext = str ".html") :
    goodComp (ln.take (ln.length - 5) ++ ext) = true := by
  obtain ⟨-, -, -, hs, hb⟩ := goodComp_spec ln hln
  have hsl : '/' ∉ ln.take (ln.length - 5) ++ ext := by
    intro hmem
    rcases List.mem_append.1 hmem with h1 | h2
    · exact hs (List.take_subset _ _ h1)
    · rcases hext with rfl | rfl <;> simp [str] at h2
  have hbs : '\\' ∉ ln.take (ln.length - 5) ++ ext := by
    intro hmem
    rcases List.mem_append.1 hmem with h1 | h2
    · exact hb (List.take_subset _ _ h1)
    · rcases hext with rfl | rfl <;> simp [str] at h2
  have hlen : 3 ≤ (ln.take (ln.length - 5) ++ ext).length := by
    rw [List.length_append]
    rcases hext with rfl | rfl <;> simp [str]
  simp only [goodComp, Bool.and_eq_true, decide_eq_true_eq]
  refine ⟨⟨⟨⟨?_, ?_⟩, ?_⟩, hsl⟩, hbs⟩
  · intro hh; rw [hh] at hlen; simp at hlen
  · intro hh; rw [hh] at hlen; simp [str] at hlen
  · intro hh; rw [hh] at hlen; simp [str] at hlen

theorem lowerStr_append (a b : Str) : lowerStr (a ++ b) = lowerStr a ++ lowerStr b :=
  List.map_append asciiLower a b

theorem mirrorPathForDocx_canonical (format : Str) (init : List Str) (ln : Str)
    (hg : ∀ c ∈ init ++ [ln], goodComp c = true)
    (hsuf : (str ".docx") <:+ lowerStr ln) :
    GenerateAll.mirrorPathForDocx (renderPath (str "snippets" :: (init ++ [ln]))) format =
      renderPath (str "snippets-mirror" :: (init ++
        [ln.take (ln.length - 5) ++ GenerateAll.outputExtensionFor format])) := by
  have hlnlen : 5 ≤ ln.length := by
    have := hsuf.length_le
    simpa [str, lowerStr] using this
  -- no backslash anywhere in the rendered source path
  have hnb : '\\' ∉ renderPath (str "snippets" :: (init ++ [ln])) := by
    intro hmem
    rcases mem_renderPath _ _ hmem with h | ⟨p, hp, hcp⟩
    · simp at h
    · rcases List.mem_cons.1 hp with rfl | hp2
      · simp [str] at hcp
      · exact (goodComp_spec p (hg p hp2)).2.2.2.2 hcp
  -- the rendered source path decomposes after the source root
  have hdecomp : renderPath (str "snippets" :: (init ++ [ln])) =
      str "snippets/" ++ renderPath (init ++ [ln]) := by
    rw [renderPath_cons (str "snippets") (init ++ [ln]) (by simp)]
    rw [show str "snippets/" = str "snippets" ++ ['/'] from rfl]
    simp
  simp only [GenerateAll.mirrorPathForDocx]
  rw [normalizeSlashes_id _ hnb, hdecomp]
  rw [show (9 : Nat) = (str "snippets/").length from rfl, List.drop_left]
  -- the suffix test fires
  have hrel : renderPath (init ++ [ln]) = renderPath (init ++ [([] : Str)]) ++ ln := by
    have := renderPath_append_last init [] ln
    simpa using this
  have hsuftest : (str ".docx").isSuffixOf (lowerStr (renderPath (init ++ [ln]))) = true := by
    rw [List.isSuffixOf_iff_suffix, hrel, lowerStr_append]
    exact hsuf.trans (List.suffix_append _ _)
  unfold replaceDocxSuffix
  rw [if_pos hsuftest]
  -- compute the take
  have htake : (renderPath (init ++ [ln])).take ((renderPath (init ++ [ln])).length - 5) =
      renderPath (init ++ [([] : Str)]) ++ ln.take (ln.length - 5) := by
    rw [hrel, List.length_append]
    rw [show (renderPath (init ++ [([] : Str)])).length + ln.length - 5 =
      (renderPath (init ++ [([] : Str)])).length + (ln.length - 5) by omega]
    simp [List.take_append]
  rw [htake, List.append_assoc]
  have hfold : renderPath (init ++ [([] : Str)]) ++
      (ln.take (ln.length - 5) ++ GenerateAll.outputExtensionFor format) =
      renderPath (init ++ [ln.take (ln.length - 5) ++ GenerateAll.outputExtensionFor format]) := by
    rw [renderPath_append_last init (ln.take (ln.length - 5)) (GenerateAll.outputExtensionFor format)]
    have h0 := renderPath_append_last init [] (ln.take (ln.length - 5))
    simp only [List.nil_append] at h0
    rw [h0, List.append_assoc]
  rw [hfold]
  -- split and rejoin
  have hgood2 : ∀ c ∈ init ++ [ln.take (ln.length - 5) ++ GenerateAll.outputExtensionFor format],
      goodComp c = true := by
    intro c hc
    rcases List.mem_append.1 hc with h1 | h2
    · exact hg c (by simp [h1])
    · rcases List.mem_cons.1 h2 with rfl | h3
      · exact goodComp_swap ln _ (hg ln (by simp)) (outputExtensionFor_cases format)
      · simp at h3
  rw [splitOnChar_renderPath _ (by simp)
    (fun c hc => (goodComp_spec c (hgood2 c hc)).2.2.2.1)]
  rw [pathJoin_good _ (by simp)]
  intro p hp
  rcases List.mem_cons.1 hp with rfl | h2
  · decide
  · exact hgood2 p h2

/-- Claim C2 (amended): for a fixed output format, restricted to canonical
source paths — forward slashes, nonempty non-dot separator-free components,
and a literal lower-case `.docx` extension — mapping a source path to its
mirror path and substituting the root and extension back recovers the
original path, and the mapping is injective on such paths. -/
theorem claim_C2_amended : ∀ (format : Str) (init₁ init₂ : List Str) (stem₁ stem₂ : Str),
    (∀ c ∈ init₁ ++ [stem₁ ++ str ".docx"], goodComp c = true) →
    (∀ c ∈ init₂ ++ [stem₂ ++ str ".docx"], goodComp c = true) →
    (specBackSubstitute (GenerateAll.mirrorPathForDocx
        (renderPath (str "snippets" :: (init₁ ++ [stem₁ ++ str ".docx"]))) format) format =
      renderPath (str "snippets" :: (init₁ ++ [stem₁ ++ str ".docx"]))) ∧
    (GenerateAll.mirrorPathForDocx
        (renderPath (str "snippets" :: (init₁ ++ [stem₁ ++ str ".docx"]))) format =
      GenerateAll.mirrorPathForDocx
        (renderPath (str "snippets" :: (init₂ ++ [stem₂ ++ str ".docx"]))) format →
      renderPath (str "snippets" :: (init₁ ++ [stem₁ ++ str ".docx"])) =
        renderPath (str "snippets" :: (init₂ ++ [stem₂ ++ str ".docx"]))) := by
  intro format init₁ init₂ stem₁ stem₂ hg₁ hg₂
  have key : ∀ (init : List Str) (stem : Str),
      (∀ c ∈ init ++ [stem ++ str ".docx"], goodComp c = true) →
      specBackSubstitute (GenerateAll.mirrorPathForDocx
        (renderPath (str "snippets" :: (init ++ [stem ++ str ".docx"]))) format) format =
        renderPath (str "snippets" :: (init ++ [stem ++ str ".docx"])) := by
    intro init stem hg
    have hsuf : (str ".docx") <:+ lowerStr (stem ++ str ".docx") := by
      rw [lowerStr_append, show lowerStr (str ".docx") = str ".docx" from by decide]
      exact List.suffix_append _ _
    rw [mirrorPathForDocx_canonical format init (stem ++ str ".docx") hg hsuf]
    have hstem : (stem ++ str ".docx").take ((stem ++ str ".docx").length - 5) = stem := by
      rw [List.length_append]
      rw [show stem.length + (str ".docx").length - 5 = stem.length from by simp [str]]
      exact List.take_left stem _
    rw [hstem]
    have hdec : renderPath (str "snippets-mirror" ::
        (init ++ [stem ++ GenerateAll.outputExtensionFor format])) =
        str "snippets-mirror/" ++
          renderPath (init ++ [stem ++ GenerateAll.outputExtensionFor format]) := by
      rw [renderPath_cons (str "snippets-mirror") _ (by simp)]
      rw [show str "snippets-mirror/" = str "snippets-mirror" ++ ['/'] from rfl]
      simp
    simp only [specBackSubstitute]
    rw [hdec, List.drop_left]
    rw [renderPath_append_last init stem (GenerateAll.outputExtensionFor format)]
    rw [List.length_append]
    rw [show (renderPath (init ++ [stem])).length +
        (GenerateAll.outputExtensionFor format).length -
        (GenerateAll.outputExtensionFor format).length =
        (renderPath (init ++ [stem])).length from by omega]
    rw [List.take_left]
    rw [show renderPath (str "snippets" :: (init ++ [stem ++ str ".docx"])) =
        str "snippets/" ++ renderPath (init ++ [stem ++ str ".docx"]) from by
      rw [renderPath_cons (str "snippets") _ (by simp)]
      rw [show str "snippets/" = str "snippets" ++ ['/'] from rfl]
      simp]
    rw [renderPath_append_last init stem (str ".docx")]
    simp [List.append_assoc]
  refine ⟨key init₁ stem₁ hg₁, fun heq => ?_⟩
  rw [← key init₁ stem₁ hg₁, ← key init₂ stem₂ hg₂, heq]

/-- Witness for the amended claim C2 at the concrete source path
`snippets/a/b.docx` with the `gfm` format. -/
theorem claim_C2_witness :
    specBackSubstitute (GenerateAll.mirrorPathForDocx
      (renderPath (str "snippets" :: ([str "a"] ++ [str "b" ++ str ".docx"]))) (str "gfm"))
      (str "gfm") =
    renderPath (str "snippets" :: ([str "a"] ++ [str "b" ++ str ".docx"])) :=
  (claim_C2_amended (str "gfm") [str "a"] [str "a"] (str "b") (str "b")
    (by decide) (by decide)).1

/-- Claim C2 (counterexample): the two distinct source paths
`snippets/a.DOCX` and `snippets/a.docx` map to the same mirror path, because
the `.docx` suffix test is case-insensitive — so the mapping is not injective
on all source paths, refuting the claim as stated. -/
theorem claim_C2_counterexample :
    GenerateAll.mirrorPathForDocx (str "snippets/a.DOCX") (str "gfm") =
      GenerateAll.mirrorPathForDocx (str "snippets/a.docx") (str "gfm") ∧
    str "snippets/a.DOCX" ≠ str "snippets/a.docx" := by
  decide

/-- Claim C8 (amended): the single-document mapping succeeds exactly when the
requested path, after backslash normalization and ASCII lower-casing, starts
with `snippets/`; and when it does not, the single-document flow returns the
invalid-source-path error with the file system untouched — before any output
is produced. -/
theorem claim_C8_amended : ∀ (docxPath format : Str) (convOk : Bool) (errMsg : Str) (fs : Fs),
    ((SnippetMirror.mirrorPathForDocx docxPath format).isOk = true ↔
      (str "snippets/") <+: lowerStr (normalizeSlashes docxPath)) ∧
    (¬ (str "snippets/") <+: lowerStr (normalizeSlashes docxPath) →
      ∃ e, SnippetMirror.generateSnippetMirror convOk errMsg docxPath format fs =
        (.error e, fs)) := by
  intro docxPath format convOk errMsg fs
  constructor
  · simp only [SnippetMirror.mirrorPathForDocx]
    split
    · rename_i h
      simp only [Except.isOk, Except.toBool]
      constructor
      · intro hfalse; cases hfalse
      · intro hp
        exact absurd (List.isPrefixOf_iff_prefix.2 hp) h
    · rename_i h
      rw [not_not] at h
      simp only [Except.isOk, Except.toBool, true_iff]
      exact List.isPrefixOf_iff_prefix.1 h
  · intro hnp
    have herr : SnippetMirror.mirrorPathForDocx docxPath (SnippetMirror.normalizeFormat format) =
        .error (str "Expected path under snippets/. Got: " ++ docxPath) := by
      simp only [SnippetMirror.mirrorPathForDocx]
      rw [if_pos]
      intro hb
      exact hnp (List.isPrefixOf_iff_prefix.1 hb)
    exact ⟨str "Expected path under snippets/. Got: " ++ docxPath,
      by simp only [SnippetMirror.generateSnippetMirror, herr]⟩

/-- Claim C8 (counterexample): the path `SNIPPETS/a.docx` is not under the
source root `snippets/`, yet the single-document mapping succeeds on it,
because the code's check lower-cases the path first; the claim's 'exactly
when' fails as stated. -/
theorem claim_C8_counterexample :
    (SnippetMirror.mirrorPathForDocx (str "SNIPPETS/a.docx") (str "gfm")).isOk = true ∧
    ¬ (str "snippets/") <+: (str "SNIPPETS/a.docx") := by
  decide

/-- Witness for the amended claim C8 at the concrete path
`elsewhere/a.docx`, which fails the source-root check: the flow errors and
leaves the empty file system unchanged. -/
theorem claim_C8_witness : ∃ e,
    SnippetMirror.generateSnippetMirror true [] (str "elsewhere/a.docx") (str "gfm")
      ⟨[], []⟩ = (.error e, ⟨[], []⟩) :=
  (claim_C8_amended (str "elsewhere/a.docx") (str "gfm") true [] ⟨[], []⟩).2 (by decide)

/-- Claim C1 (code evaluation at the failing input): with no source documents
and a mirror tree holding one stale mirror `snippets-mirror/a/x.md`, the
reconciliation pass deletes the stale file, yet the now-empty directory
`snippets-mirror/a` survives with zero children — the empty-directory sweep
only ever examines parents of surviving files, so it removes nothing,
contradicting the claim that every directory left empty by stale-mirror
deletion is removed. -/
theorem claim_C1_code_eval :
    (GenerateAll.removeStaleMirrors [] (str "gfm") fsC1).files = [] ∧
    [str "snippets-mirror", str "a"] ∈ (GenerateAll.removeStaleMirrors [] (str "gfm") fsC1).dirs ∧
    dirChildCount (GenerateAll.removeStaleMirrors [] (str "gfm") fsC1)
      [str "snippets-mirror", str "a"] = 0 := by
  decide

/-- Claim C3 (code evaluation at the failing inputs): neither merge pass is
idempotent.  On the markdown input consisting of backtick, space, backtick,
`a`, space, backtick, the first pass yields a string on which a second pass
re-tokenizes an untrimmed span and changes the output; the analogous
HTML-pass input with curly braces misbehaves the same way. -/
theorem claim_C3_code_eval :
    SnippetMirror.mergeAdjacentCodeSpans (SnippetMirror.mergeAdjacentCodeSpans sC3md) ≠
      SnippetMirror.mergeAdjacentCodeSpans sC3md ∧
    SnippetMirror.mergeAdjacentHtmlCurlyBlocks
        (SnippetMirror.mergeAdjacentHtmlCurlyBlocks sC3html) ≠
      SnippetMirror.mergeAdjacentHtmlCurlyBlocks sC3html := by
  decide

/-- Claim C6 (counterexample): when a document's conversion fails in the same
batch run, its expected mirror path lies in the image of the source-document
set but no mirror file exists after reconciliation, so the mirror-file set is
not the image of the source set; the claim as stated fails. -/
theorem claim_C6_counterexample :
    (∃ d ∈ GenerateAll.listDocxFilesUnderSnippets fsC6,
       [str "snippets-mirror", str "a", str "x.md"] =
         GenerateAll.mirrorComponentsFor (str "gfm") d) ∧
    [str "snippets-mirror", str "a", str "x.md"] ∉
      (GenerateAll.generateAllMirrors (fun _ => false) (fun _ => str "pandoc failed")
        (str "gfm") fsC6).1.files := by
  decide

theorem outputExtensionFor_eq (f : Str) :
    SnippetMirror.outputExtensionFor (SnippetMirror.normalizeFormat f) =
      GenerateAll.outputExtensionFor f := by
  have hga : GenerateAll.outputExtensionFor f =
      (if lowerStr f = str "html" then str ".html" else str ".md") := by
    simp [GenerateAll.outputExtensionFor, GenerateAll.isHtmlFormat]
  have hsm : ∀ g : Str, SnippetMirror.outputExtensionFor g =
      (if g = str "html" then str ".html" else str ".md") := by
    intro g
    simp [SnippetMirror.outputExtensionFor, SnippetMirror.isHtmlFormat]
  rw [hga, hsm]
  by_cases h : lowerStr f = str "html"
  · rw [if_pos h, if_pos]
    simp only [SnippetMirror.normalizeFormat, h]
    rw [if_neg (by decide), if_neg (by decide), if_neg (by decide)]
  · rw [if_neg h, if_neg]
    simp only [SnippetMirror.normalizeFormat]
    split
    · decide
    · split
      · decide
      · split
        · decide
        · exact h

theorem mirrorPathForDocx_ok (p f : Str)
    (h : (str "snippets/") <+: lowerStr (normalizeSlashes p)) :
    SnippetMirror.mirrorPathForDocx p (SnippetMirror.normalizeFormat f) =
      .ok (GenerateAll.mirrorPathForDocx p f) := by
  simp only [SnippetMirror.mirrorPathForDocx, GenerateAll.mirrorPathForDocx]
  rw [if_neg (by rw [not_not]; exact List.isPrefixOf_iff_prefix.2 h)]
  rw [outputExtensionFor_eq]

theorem docx_prefix_render (d : FsPath) (hd : [str "snippets"] <+: d)
    (hlen : 1 < d.length) :
    (str "snippets/") <+: lowerStr (normalizeSlashes (renderPath d)) := by
  obtain ⟨rest, rfl⟩ := hd
  cases rest with
  | nil => simp at hlen
  | cons y ys =>
    rw [show [str "snippets"] ++ y :: ys = str "snippets" :: (y :: ys) from rfl]
    rw [renderPath_cons (str "snippets") (y :: ys) (by simp)]
    rw [show str "snippets" ++ '/' :: renderPath (y :: ys) =
      str "snippets/" ++ renderPath (y :: ys) from by simp [str]]
    unfold normalizeSlashes lowerStr
    rw [List.map_append, List.map_append]
    exact ⟨_, by rw [show (List.map asciiLower (List.map (fun c => if c = '\\' then '/' else c)
      (str "snippets/"))) = str "snippets/" from by decide]⟩

theorem mem_walkFiles (dir : FsPath) (fs : Fs) (p : FsPath) :
    p ∈ GenerateAll.walkFiles dir fs ↔
      p ∈ fs.files ∧ dir <+: p ∧ dir.length < p.length := by
  simp only [GenerateAll.walkFiles, List.mem_filter, Bool.and_eq_true, decide_eq_true_eq]
  constructor
  · rintro ⟨h1, h2, h3⟩
    exact ⟨h1, List.isPrefixOf_iff_prefix.1 h2, h3⟩
  · rintro ⟨h1, h2, h3⟩
    exact ⟨h1, List.isPrefixOf_iff_prefix.2 h2, h3⟩

theorem mem_listDocx (fs : Fs) (d : FsPath) :
    d ∈ GenerateAll.listDocxFilesUnderSnippets fs ↔
      d ∈ fs.files ∧ [str "snippets"] <+: d ∧ 1 < d.length ∧
      (str ".docx").isSuffixOf (lowerStr (renderPath d)) = true := by
  simp only [GenerateAll.listDocxFilesUnderSnippets, List.mem_filter, mem_walkFiles]
  constructor
  · rintro ⟨⟨h1, h2, h3⟩, h4⟩
    exact ⟨h1, by simpa using h2, by simpa using h3, h4⟩
  · rintro ⟨h1, h2, h3, h4⟩
    exact ⟨⟨h1, by simpa using h2, by simpa using h3⟩, h4⟩

theorem writeFileAt_mem (q : FsPath) (fs : Fs) (p : FsPath) :
    p ∈ (writeFileAt q fs).files ↔ p ∈ fs.files ∨ p = q := by
  simp only [writeFileAt]
  split
  · rename_i hq
    constructor
    · exact Or.inl
    · rintro (h | rfl)
      · exact h
      · exact hq
  · simp [or_comm]

theorem loop_spec (convOk : FsPath → Bool) (errOf : FsPath → Str) (fmt : Str) :
    ∀ (docs : List FsPath) (fs : Fs) (acc : List (FsPath × Str)),
    (∀ d ∈ docs, (str "snippets/") <+: lowerStr (normalizeSlashes (renderPath d))) →
    (GenerateAll.generateAllMirrorsLoop convOk errOf fmt docs fs acc).2 =
      acc ++ (docs.filter (fun d => ¬ convOk d)).map (fun d => (d, errOf d)) ∧
    ∀ p, p ∈ (GenerateAll.generateAllMirrorsLoop convOk errOf fmt docs fs acc).1.files ↔
      (p ∈ fs.files ∨ ∃ d ∈ docs, convOk d = true ∧
        p = splitOnChar '/' (GenerateAll.mirrorPathForDocx (renderPath d) fmt)) := by
  intro docs
  induction docs with
  | nil =>
    intro fs acc _
    simp [GenerateAll.generateAllMirrorsLoop]
  | cons d ds ih =>
    intro fs acc hpre
    have hd := hpre d (by simp)
    have hds : ∀ x ∈ ds, (str "snippets/") <+: lowerStr (normalizeSlashes (renderPath x)) :=
      fun x hx => hpre x (by simp [hx])
    have hstep : SnippetMirror.generateSnippetMirror (convOk d) (errOf d) (renderPath d) fmt fs =
        (if convOk d then
          (Except.ok (GenerateAll.mirrorPathForDocx (renderPath d) fmt),
            writeFileAt (splitOnChar '/' (GenerateAll.mirrorPathForDocx (renderPath d) fmt))
              (SnippetMirror.ensureDirForFile
                (splitOnChar '/' (GenerateAll.mirrorPathForDocx (renderPath d) fmt)) fs))
         else
          (Except.error (errOf d),
            SnippetMirror.ensureDirForFile
              (splitOnChar '/' (GenerateAll.mirrorPathForDocx (renderPath d) fmt)) fs)) := by
      simp only [SnippetMirror.generateSnippetMirror, mirrorPathForDocx_ok _ _ hd]
    by_cases hok : convOk d
    · rw [show GenerateAll.generateAllMirrorsLoop convOk errOf fmt (d :: ds) fs acc =
          GenerateAll.generateAllMirrorsLoop convOk errOf fmt ds
            (writeFileAt (splitOnChar '/' (GenerateAll.mirrorPathForDocx (renderPath d) fmt))
              (SnippetMirror.ensureDirForFile
                (splitOnChar '/' (GenerateAll.mirrorPathForDocx (renderPath d) fmt)) fs)) acc from by
        simp only [GenerateAll.generateAllMirrorsLoop, hstep, if_pos hok]]
      obtain ⟨ihf, ihm⟩ := ih _ acc hds
      refine ⟨by rw [ihf]; simp [List.filter_cons, hok], fun p => ?_⟩
      rw [ihm p]
      have hw : p ∈ (writeFileAt (splitOnChar '/'
          (GenerateAll.mirrorPathForDocx (renderPath d) fmt))
            (SnippetMirror.ensureDirForFile
              (splitOnChar '/' (GenerateAll.mirrorPathForDocx (renderPath d) fmt)) fs)).files ↔
          p ∈ fs.files ∨ p = splitOnChar '/' (GenerateAll.mirrorPathForDocx (renderPath d) fmt) := by
        rw [writeFileAt_mem]
        exact or_congr_left Iff.rfl
      rw [hw]
      constructor
      · rintro ((h1 | h2) | ⟨x, hx, hcx, rfl⟩)
        · exact Or.inl h1
        · exact Or.inr ⟨d, by simp, hok, h2⟩
        · exact Or.inr ⟨x, by simp [hx], hcx, rfl⟩
      · rintro (h1 | ⟨x, hx, hcx, rfl⟩)
        · exact Or.inl (Or.inl h1)
        · rcases List.mem_cons.1 hx with rfl | hx2
          · exact Or.inl (Or.inr rfl)
          · exact Or.inr ⟨x, hx2, hcx, rfl⟩
    · rw [show GenerateAll.generateAllMirrorsLoop convOk errOf fmt (d :: ds) fs acc =
          GenerateAll.generateAllMirrorsLoop convOk errOf fmt ds
            (SnippetMirror.ensureDirForFile
              (splitOnChar '/' (GenerateAll.mirrorPathForDocx (renderPath d) fmt)) fs)
            (acc ++ [(d, errOf d)]) from by
        simp only [GenerateAll.generateAllMirrorsLoop, hstep, if_neg hok]]
      obtain ⟨ihf, ihm⟩ := ih _ (acc ++ [(d, errOf d)]) hds
      refine ⟨by rw [ihf]; simp [List.filter_cons, hok], fun p => ?_⟩
      rw [ihm p]
      constructor
      · rintro (h1 | ⟨x, hx, hcx, rfl⟩)
        · exact Or.inl h1
        · exact Or.inr ⟨x, by simp [hx], hcx, rfl⟩
      · rintro (h1 | ⟨x, hx, hcx, rfl⟩)
        · exact Or.inl h1
        · rcases List.mem_cons.1 hx with rfl | hx2
          · rw [hcx] at hok; cases hok rfl
          · exact Or.inr ⟨x, hx2, hcx, rfl⟩

theorem removeStale_files (docs : List FsPath) (fmt : Str) (fs : Fs) (p : FsPath) :
    p ∈ (GenerateAll.removeStaleMirrors docs fmt fs).files ↔
      p ∈ fs.files ∧ ¬(p ∈ GenerateAll.listMirrorFiles fmt fs ∧ 3 ≤ p.length ∧
        p ∉ docs.map (GenerateAll.mirrorComponentsFor fmt)) := by
  simp only [GenerateAll.removeStaleMirrors, List.mem_filter, decide_eq_true_eq]

/-- Claim C10: every discovered source document contributes its expected
mirror path to the reconciler's expected set — with no assumption on whether
its conversion succeeded — and consequently a pre-existing mirror file of a
still-existing source document survives the batch run even when that
document's conversion just failed. -/
theorem claim_C10 : ∀ (convOk : FsPath → Bool) (errOf : FsPath → Str)
    (fmt : Str) (fs : Fs) (d : FsPath),
    d ∈ GenerateAll.listDocxFilesUnderSnippets fs →
    GenerateAll.mirrorComponentsFor fmt d ∈
      (GenerateAll.listDocxFilesUnderSnippets fs).map (GenerateAll.mirrorComponentsFor fmt) ∧
    (GenerateAll.mirrorComponentsFor fmt d ∈ fs.files →
      GenerateAll.mirrorComponentsFor fmt d ∈
        (GenerateAll.generateAllMirrors convOk errOf fmt fs).1.files) := by
  intro convOk errOf fmt fs d hd
  refine ⟨List.mem_map_of_mem _ hd, fun hmem => ?_⟩
  have hpre : ∀ x ∈ GenerateAll.listDocxFilesUnderSnippets fs,
      (str "snippets/") <+: lowerStr (normalizeSlashes (renderPath x)) := by
    intro x hx
    obtain ⟨-, h2, h3, -⟩ := (mem_listDocx fs x).1 hx
    exact docx_prefix_render x h2 h3
  obtain ⟨-, hfiles⟩ := loop_spec convOk errOf fmt
    (GenerateAll.listDocxFilesUnderSnippets fs) fs [] hpre
  simp only [GenerateAll.generateAllMirrors]
  rw [removeStale_files]
  refine ⟨(hfiles _).2 (Or.inl hmem), ?_⟩
  rintro ⟨-, -, habs⟩
  exact habs (List.mem_map_of_mem _ hd)

theorem listDocx_mkdir (fs : Fs) :
    GenerateAll.listDocxFilesUnderSnippets (mkdirRec [str "snippets-mirror"] fs) =
      GenerateAll.listDocxFilesUnderSnippets fs := rfl

theorem mem_listDocx_clean (fs : Fs) (d : FsPath) :
    d ∈ GenerateAll.listDocxFilesUnderSnippets (GenerateAll.cleanMirrorOutput fs) ↔
      d ∈ GenerateAll.listDocxFilesUnderSnippets fs := by
  rw [mem_listDocx, mem_listDocx]
  constructor
  · rintro ⟨h1, h2, h3, h4⟩
    refine ⟨?_, h2, h3, h4⟩
    revert h1
    simp only [GenerateAll.cleanMirrorOutput]
    split
    · intro h1; exact (List.mem_filter.1 h1).1
    · exact id
  · rintro ⟨h1, h2, h3, h4⟩
    refine ⟨?_, h2, h3, h4⟩
    simp only [GenerateAll.cleanMirrorOutput]
    split
    · apply List.mem_filter.2
      refine ⟨h1, ?_⟩
      simp only [decide_eq_true_eq]
      rintro ⟨hpref, -⟩
      obtain ⟨t2, ht2⟩ := h2
      obtain ⟨t5, ht5⟩ := hpref
      rw [← ht2] at ht5
      simp [str] at ht5
    · exact h1

/-- Claim C9: the batch orchestrator enumerates the source documents, runs
the single-document flow on each (writing the mirror of every document whose
conversion succeeds), collects a (document, error) pair for exactly the
documents whose conversion fails while continuing past them, always applies
the reconciler to the post-generation state regardless of failures, and the
process exits with code 1 exactly when at least one document failed (and
with code 2 when the source root is missing). -/
theorem claim_C9 : ∀ (convOk : FsPath → Bool) (errOf : FsPath → Str)
    (fmt : Str) (clean : Bool) (fs : Fs),
    (GenerateAll.generateAllMirrors convOk errOf fmt fs).2.1 =
      GenerateAll.listDocxFilesUnderSnippets fs ∧
    (GenerateAll.generateAllMirrors convOk errOf fmt fs).2.2 =
      ((GenerateAll.listDocxFilesUnderSnippets fs).filter (fun d => ¬ convOk d)).map
        (fun d => (d, errOf d)) ∧
    (GenerateAll.generateAllMirrors convOk errOf fmt fs).1 =
      GenerateAll.removeStaleMirrors (GenerateAll.listDocxFilesUnderSnippets fs) fmt
        (GenerateAll.generateAllMirrorsLoop convOk errOf fmt
          (GenerateAll.listDocxFilesUnderSnippets fs) fs []).1 ∧
    (∀ d ∈ GenerateAll.listDocxFilesUnderSnippets fs, convOk d = true →
      splitOnChar '/' (GenerateAll.mirrorPathForDocx (renderPath d) fmt) ∈
        (GenerateAll.generateAllMirrorsLoop convOk errOf fmt
          (GenerateAll.listDocxFilesUnderSnippets fs) fs []).1.files) ∧
    ([str "snippets"] ∈ fs.dirs →
      ((GenerateAll.mainModel convOk errOf fmt clean fs).1 = 1 ↔
        ∃ d ∈ GenerateAll.listDocxFilesUnderSnippets fs, ¬ convOk d = true)) ∧
    ([str "snippets"] ∉ fs.dirs → (GenerateAll.mainModel convOk errOf fmt clean fs).1 = 2) := by
  intro convOk errOf fmt clean fs
  have hpre : ∀ (g : Fs) (x : FsPath), x ∈ GenerateAll.listDocxFilesUnderSnippets g →
      (str "snippets/") <+: lowerStr (normalizeSlashes (renderPath x)) := by
    intro g x hx
    obtain ⟨-, h2, h3, -⟩ := (mem_listDocx g x).1 hx
    exact docx_prefix_render x h2 h3
  obtain ⟨hf, hm⟩ := loop_spec convOk errOf fmt
    (GenerateAll.listDocxFilesUnderSnippets fs) fs [] (hpre fs)
  refine ⟨rfl, by simpa using hf, rfl, ?_, ?_, ?_⟩
  · intro d hd hok
    exact (hm _).2 (Or.inr ⟨d, hd, hok, rfl⟩)
  · intro hdir
    have hnn : ¬ [str "snippets"] ∉ fs.dirs := fun hc => hc hdir
    simp only [GenerateAll.mainModel, if_neg hnn]
    set fs₂ := if clean = true then
        GenerateAll.cleanMirrorOutput (mkdirRec [str "snippets-mirror"] fs)
      else mkdirRec [str "snippets-mirror"] fs with hfs₂
    obtain ⟨hf₂, -⟩ := loop_spec convOk errOf (GenerateAll.normalizeFormat fmt)
      (GenerateAll.listDocxFilesUnderSnippets fs₂) fs₂ [] (hpre fs₂)
    have hmem : ∀ d, d ∈ GenerateAll.listDocxFilesUnderSnippets fs₂ ↔
        d ∈ GenerateAll.listDocxFilesUnderSnippets fs := by
      intro d
      rw [hfs₂]
      cases clean with
      | false => rw [if_neg (by simp), listDocx_mkdir]
      | true => rw [if_pos rfl, mem_listDocx_clean, listDocx_mkdir]
    constructor
    · intro h1
      by_contra hno
      push_neg at hno
      have hemp : ((GenerateAll.listDocxFilesUnderSnippets fs₂).filter
          (fun d => ¬ convOk d)).map (fun d => (d, errOf d)) = [] := by
        rw [List.map_eq_nil_iff, List.filter_eq_nil_iff]
        intro d hd
        simp only [decide_eq_true_eq, not_not]
        exact hno d ((hmem d).1 hd)
      simp only [GenerateAll.generateAllMirrors, hf₂, List.nil_append, hemp] at h1
      simp at h1
    · rintro ⟨d, hd, hnok⟩
      have hne : (GenerateAll.generateAllMirrors convOk errOf
          (GenerateAll.normalizeFormat fmt) fs₂).2.2 ≠ [] := by
        simp only [GenerateAll.generateAllMirrors, hf₂, List.nil_append]
        intro hc
        rw [List.map_eq_nil_iff, List.filter_eq_nil_iff] at hc
        have := hc d ((hmem d).2 hd)
        simp only [decide_eq_true_eq, not_not] at this
        exact hnok this
      simp only [if_pos hne]
  · intro hdir
    simp only [GenerateAll.mainModel, if_pos hdir]

theorem mem_listMirror (fmt : Str) (fs : Fs) (p : FsPath) :
    p ∈ GenerateAll.listMirrorFiles fmt fs ↔
      p ∈ fs.files ∧ [str "snippets-mirror"] <+: p ∧ 1 < p.length ∧
      (lowerStr (GenerateAll.outputExtensionFor fmt)).isSuffixOf
        (lowerStr (renderPath p)) = true := by
  simp only [GenerateAll.listMirrorFiles, List.mem_filter, mem_walkFiles]
  constructor
  · rintro ⟨⟨h1, h2, h3⟩, h4⟩
    exact ⟨h1, by simpa using h2, by simpa using h3, h4⟩
  · rintro ⟨h1, h2, h3, h4⟩
    exact ⟨⟨h1, by simpa using h2, by simpa using h3⟩, h4⟩

theorem renderPath_snoc (Y : List Str) (z : Str) (hY : Y ≠ []) :
    renderPath (Y ++ [z]) = renderPath Y ++ '/' :: z := by
  induction Y with
  | nil => cases hY rfl
  | cons x xs ih =>
    cases xs with
    | nil => rfl
    | cons y ys =>
      rw [List.cons_append, renderPath_cons x ((y :: ys) ++ [z]) (by simp),
        ih (by simp), renderPath_cons x (y :: ys) (by simp)]
      simp

theorem docx_last_suffix (init : List Str) (ln : Str)
    (hsuf : (str ".docx").isSuffixOf
      (lowerStr (renderPath (str "snippets" :: (init ++ [ln])))) = true) :
    (str ".docx") <:+ lowerStr ln := by
  rw [List.isSuffixOf_iff_suffix] at hsuf
  rw [show str "snippets" :: (init ++ [ln]) = (str "snippets" :: init) ++ [ln] from by simp] at hsuf
  rw [renderPath_snoc (str "snippets" :: init) ln (by simp)] at hsuf
  unfold lowerStr at hsuf
  rw [List.map_append] at hsuf
  have hslash : List.map asciiLower ('/' :: ln) = '/' :: lowerStr ln := by
    unfold lowerStr
    rw [List.map_cons]
    rw [show asciiLower '/' = '/' from by decide]
  rw [hslash] at hsuf
  have hs₂ : ('/' :: lowerStr ln) <:+
      (List.map asciiLower (renderPath (str "snippets" :: init)) ++ '/' :: lowerStr ln) :=
    List.suffix_append _ _
  by_cases hlen : ('/' :: lowerStr ln).length ≤ (str ".docx").length
  · have hsub := List.suffix_of_suffix_length_le hs₂ hsuf hlen
    have : '/' ∈ str ".docx" := hsub.subset (by simp)
    simp [str] at this
  · push_neg at hlen
    have hlln : (str ".docx").length ≤ (lowerStr ln).length := by
      simp only [List.length_cons, str] at hlen ⊢
      simp at hlen ⊢
      omega
    have hlnsuf : lowerStr ln <:+
        (List.map asciiLower (renderPath (str "snippets" :: init)) ++ '/' :: lowerStr ln) :=
      (List.suffix_cons '/' (lowerStr ln)).trans (List.suffix_append _ _)
    exact List.suffix_of_suffix_length_le hsuf hlnsuf hlln

theorem mirrorComponents_canonical (fmt : Str) (init : List Str) (ln : Str)
    (hg : ∀ c ∈ init ++ [ln], goodComp c = true)
    (hsuf : (str ".docx") <:+ lowerStr ln) :
    GenerateAll.mirrorComponentsFor fmt (str "snippets" :: (init ++ [ln])) =
      str "snippets-mirror" :: (init ++
        [ln.take (ln.length - 5) ++ GenerateAll.outputExtensionFor fmt]) := by
  unfold GenerateAll.mirrorComponentsFor
  rw [mirrorPathForDocx_canonical fmt init ln hg hsuf]
  have hgood2 : ∀ c ∈ init ++ [ln.take (ln.length - 5) ++ GenerateAll.outputExtensionFor fmt],
      goodComp c = true := by
    intro c hc
    rcases List.mem_append.1 hc with h1 | h2
    · exact hg c (by simp [h1])
    · rcases List.mem_cons.1 h2 with rfl | h3
      · exact goodComp_swap ln _ (hg ln (by simp)) (outputExtensionFor_cases fmt)
      · simp at h3
  rw [splitOnChar_renderPath _ (by simp)]
  intro c hc
  rcases List.mem_cons.1 hc with rfl | h2
  · decide
  · exact (goodComp_spec c (hgood2 c h2)).2.2.2.1

/-- Claim C6 (amended): in a batch run over a canonical file system in which
every document's conversion succeeds, the set of mirror files with the chosen
format's extension at depth greater than zero under the output root is
exactly the image, restricted to depth greater than zero, of the current
source-document set under the path mapping. -/
theorem claim_C6_amended : ∀ (convOk : FsPath → Bool) (errOf : FsPath → Str)
    (fmt : Str) (fs : Fs),
    CanonicalFs fs →
    (∀ d ∈ GenerateAll.listDocxFilesUnderSnippets fs, convOk d = true) →
    ∀ p, (p ∈ (GenerateAll.generateAllMirrors convOk errOf fmt fs).1.files ∧
          [str "snippets-mirror"] <+: p ∧ 3 ≤ p.length ∧
          (lowerStr (GenerateAll.outputExtensionFor fmt)).isSuffixOf
            (lowerStr (renderPath p)) = true)
        ↔ (∃ d ∈ GenerateAll.listDocxFilesUnderSnippets fs,
            p = GenerateAll.mirrorComponentsFor fmt d ∧ 3 ≤ p.length) := by
  intro convOk errOf fmt fs hcan hconv p
  have hpre : ∀ x ∈ GenerateAll.listDocxFilesUnderSnippets fs,
      (str "snippets/") <+: lowerStr (normalizeSlashes (renderPath x)) := by
    intro x hx
    obtain ⟨-, h2, h3, -⟩ := (mem_listDocx fs x).1 hx
    exact docx_prefix_render x h2 h3
  obtain ⟨-, hm⟩ := loop_spec convOk errOf fmt
    (GenerateAll.listDocxFilesUnderSnippets fs) fs [] hpre
  constructor
  · rintro ⟨hmem, hpref, hlen, hext⟩
    simp only [GenerateAll.generateAllMirrors] at hmem
    rw [removeStale_files] at hmem
    obtain ⟨hmem₁, hkeep⟩ := hmem
    have hmir : p ∈ GenerateAll.listMirrorFiles fmt
        (GenerateAll.generateAllMirrorsLoop convOk errOf fmt
          (GenerateAll.listDocxFilesUnderSnippets fs) fs []).1 :=
      (mem_listMirror fmt _ p).2 ⟨hmem₁, hpref, by omega, hext⟩
    by_cases hexp : p ∈ (GenerateAll.listDocxFilesUnderSnippets fs).map
        (GenerateAll.mirrorComponentsFor fmt)
    · obtain ⟨d, hd, hpd⟩ := List.mem_map.1 hexp
      exact ⟨d, hd, hpd.symm, hlen⟩
    · exact absurd ⟨hmir, hlen, hexp⟩ hkeep
  · rintro ⟨d, hd, hpeq, hlen⟩
    obtain ⟨hdf, hdpref, hdlen, hdsuf⟩ := (mem_listDocx fs d).1 hd
    obtain ⟨rest, rfl⟩ := hdpref
    have hrest : rest ≠ [] := by
      intro h
      subst h
      simp at hdlen
    have hdecomp : rest.dropLast ++ [rest.getLast hrest] = rest :=
      List.dropLast_append_getLast hrest
    have hshape : [str "snippets"] ++ rest =
        str "snippets" :: (rest.dropLast ++ [rest.getLast hrest]) := by
      rw [hdecomp]; rfl
    have hgood : ∀ c ∈ rest.dropLast ++ [rest.getLast hrest], goodComp c = true := by
      intro c hc
      apply ((hcan _ hdf).2 c)
      rcases List.mem_append.1 hc with h1 | h2
      · exact List.mem_append.2 (Or.inr (List.dropLast_subset rest h1))
      · rcases List.mem_cons.1 h2 with rfl | h3
        · exact List.mem_append.2 (Or.inr (List.getLast_mem hrest))
        · simp at h3
    have hsufln : (str ".docx") <:+ lowerStr (rest.getLast hrest) := by
      apply docx_last_suffix rest.dropLast (rest.getLast hrest)
      rw [← hshape]
      exact hdsuf
    have hpchar : GenerateAll.mirrorComponentsFor fmt ([str "snippets"] ++ rest) =
        str "snippets-mirror" :: (rest.dropLast ++
          [(rest.getLast hrest).take ((rest.getLast hrest).length - 5) ++
            GenerateAll.outputExtensionFor fmt]) := by
      rw [hshape]
      exact mirrorComponents_canonical fmt _ _ hgood hsufln
    subst hpeq
    refine ⟨?_, ?_, hlen, ?_⟩
    · simp only [GenerateAll.generateAllMirrors]
      rw [removeStale_files]
      refine ⟨(hm _).2 (Or.inr ⟨_, hd, hconv _ hd, rfl⟩), ?_⟩
      rintro ⟨-, -, habs⟩
      exact habs (List.mem_map_of_mem _ hd)
    · rw [hpchar]
      exact ⟨_, rfl⟩
    · rw [hpchar]
      rw [List.isSuffixOf_iff_suffix]
      rw [show str "snippets-mirror" :: (rest.dropLast ++
          [(rest.getLast hrest).take ((rest.getLast hrest).length - 5) ++
            GenerateAll.outputExtensionFor fmt]) =
          (str "snippets-mirror" :: rest.dropLast) ++
          [(rest.getLast hrest).take ((rest.getLast hrest).length - 5) ++
            GenerateAll.outputExtensionFor fmt] from by simp]
      rw [renderPath_append_last (str "snippets-mirror" :: rest.dropLast) _ _]
      unfold lowerStr
      rw [List.map_append]
      have hextfix : List.map asciiLower (GenerateAll.outputExtensionFor fmt) =
          GenerateAll.outputExtensionFor fmt := by
        rcases outputExtensionFor_cases fmt with h | h <;> rw [h] <;> decide
      rw [hextfix]
      exact List.suffix_append _ _

/-- Witness for claim C10: a pre-existing mirror survives a batch run in
which every conversion fails. -/
theorem claim_C10_witness :
    GenerateAll.mirrorComponentsFor (str "gfm") [str "snippets", str "a", str "x.docx"] ∈
      (GenerateAll.generateAllMirrors (fun _ => false) (fun _ => str "e") (str "gfm")
        fsC10).1.files :=
  (claim_C10 (fun _ => false) (fun _ => str "e") (str "gfm") fsC10
    [str "snippets", str "a", str "x.docx"] (by decide)).2 (by decide)

/-- Witness for claim C9: on a state with one document and a failing
converter, the batch exits with code 1. -/
theorem claim_C9_witness :
    (GenerateAll.mainModel (fun _ => false) (fun _ => str "e") (str "gfm") false fsC10).1 = 1 := by
  have h := (claim_C9 (fun _ => false) (fun _ => str "e") (str "gfm") false
    fsC10).2.2.2.2.1 (by decide)
  exact h.2 ⟨[str "snippets", str "a", str "x.docx"], by decide, by decide⟩

/-- Witness for the amended claim C6: the source tree with one document
`snippets/a/x.docx`, an everywhere-succeeding converter, and the mirror path
`snippets-mirror/a/x.md`. -/
theorem claim_C6_witness :
    ([str "snippets-mirror", str "a", str "x.md"] ∈
        (GenerateAll.generateAllMirrors (fun _ => true) (fun _ => str "e") (str "gfm")
          fsC6).1.files ∧
      [str "snippets-mirror"] <+: [str "snippets-mirror", str "a", str "x.md"] ∧
      3 ≤ ([str "snippets-mirror", str "a", str "x.md"] : FsPath).length ∧
      (lowerStr (GenerateAll.outputExtensionFor (str "gfm"))).isSuffixOf
        (lowerStr (renderPath [str "snippets-mirror", str "a", str "x.md"])) = true)
    ↔ (∃ d ∈ GenerateAll.listDocxFilesUnderSnippets fsC6,
        [str "snippets-mirror", str "a", str "x.md"] =
          GenerateAll.mirrorComponentsFor (str "gfm") d ∧
        3 ≤ ([str "snippets-mirror", str "a", str "x.md"] : FsPath).length) :=
  claim_C6_amended (fun _ => true) (fun _ => str "e") (str "gfm") fsC6
    (by unfold CanonicalFs; decide)
    (fun _ _ => rfl) [str "snippets-mirror", str "a", str "x.md"]

section
open SnippetMirror
theorem dropWhile_head_false (p : Char → Bool) : ∀ (l : Str) (x : Char) (xs : Str),
    l.dropWhile p = x :: xs → p x = false := by
  intro l
  induction l with
  | nil => intro x xs h; simp [List.dropWhile] at h
  | cons c cs ih =>
    intro x xs h
    rw [List.dropWhile_cons] at h
    split at h
    · exact ih x xs h
    · rename_i hc
      cases h
      simpa using hc

theorem findCloseCode_spec (cs inner rest : Str)
    (h : findCloseCode cs = some (inner, rest)) :
    cs = inner ++ backtick :: rest ∧ inner ≠ [] ∧ backtick ∉ inner := by
  simp only [findCloseCode] at h
  rcases htw : List.takeWhile (fun c => decide (c ≠ backtick)) cs with _ | ⟨a, as⟩ <;>
    rcases hdw : List.dropWhile (fun c => decide (c ≠ backtick)) cs with _ | ⟨x, xs⟩ <;>
    rw [htw, hdw] at h
  · cases h
  · cases h
  · cases h
  · simp only [Option.some.injEq, Prod.mk.injEq] at h
    obtain ⟨hinner, hrest⟩ := h
    have hx : x = backtick := by
      have := dropWhile_head_false (fun c => decide (c ≠ backtick)) cs x xs hdw
      simpa using this
    subst hinner
    subst hrest
    refine ⟨?_, by simp, ?_⟩
    · rw [← hx]
      calc cs = List.takeWhile (fun c => decide (c ≠ backtick)) cs ++
            List.dropWhile (fun c => decide (c ≠ backtick)) cs :=
          (List.takeWhile_append_dropWhile _ _).symm
        _ = (a :: as) ++ x :: xs := by rw [htw, hdw]
    · intro hmem
      rw [← htw] at hmem
      have := List.mem_takeWhile_imp hmem
      simp at this

theorem tokenizeCodeFuel_congr : ∀ (f₁ f₂ : Nat) (s : Str),
    s.length ≤ f₁ → s.length ≤ f₂ →
    tokenizeCodeFuel f₁ s = tokenizeCodeFuel f₂ s := by
  intro f₁
  induction f₁ with
  | zero =>
    intro f₂ s h₁ _
    have : s = [] := List.length_eq_zero.1 (Nat.le_zero.1 h₁)
    subst this
    cases f₂ <;> rfl
  | succ f ih =>
    intro f₂ s h₁ h₂
    cases s with
    | nil => cases f₂ <;> rfl
    | cons c cs =>
      cases f₂ with
      | zero => simp at h₂
      | succ f' =>
        simp only [tokenizeCodeFuel]
        by_cases hcb : c = backtick
        · rw [if_pos hcb, if_pos hcb]
          rcases hfc : findCloseCode cs with - | ⟨inner, rest⟩
          · dsimp only
            rw [ih f' cs (by simpa using h₁) (by simpa using h₂)]
          · dsimp only
            obtain ⟨hcs, hne, -⟩ := findCloseCode_spec cs inner rest hfc
            have hrlen : rest.length + 1 ≤ cs.length := by
              rw [hcs]
              cases inner with
              | nil => cases hne rfl
              | cons i is => simp; omega
            rw [ih f' rest (by simp at h₁; omega) (by simp at h₂; omega)]
        · rw [if_neg hcb, if_neg hcb,
            ih f' cs (by simpa using h₁) (by simpa using h₂)]

theorem takeWhile_no_backtick (v : Str) (rest : Str) (hb : backtick ∉ v) :
    List.takeWhile (fun c => decide (c ≠ backtick)) (v ++ backtick :: rest) = v ∧
    List.dropWhile (fun c => decide (c ≠ backtick)) (v ++ backtick :: rest) =
      backtick :: rest := by
  induction v with
  | nil => simp [List.takeWhile_cons, List.dropWhile_cons]
  | cons c cv ih =>
    simp only [List.mem_cons, not_or] at hb
    obtain ⟨ih1, ih2⟩ := ih hb.2
    constructor
    · rw [List.cons_append, List.takeWhile_cons,
        if_pos (by simpa using Ne.symm hb.1), ih1]
    · rw [List.cons_append, List.dropWhile_cons,
        if_pos (by simpa using Ne.symm hb.1), ih2]

theorem findCloseCode_eval (v rest : Str) (hv : v ≠ []) (hb : backtick ∉ v) :
    findCloseCode (v ++ backtick :: rest) = some (v, rest) := by
  obtain ⟨ht, hd⟩ := takeWhile_no_backtick v rest hb
  cases v with
  | nil => cases hv rfl
  | cons a as => simp only [findCloseCode, ht, hd]

theorem tokenizeCode_span (v rest : Str) (hv : v ≠ []) (hb : backtick ∉ v) :
    tokenizeCode (backtick :: (v ++ backtick :: rest)) = .code v :: tokenizeCode rest := by
  unfold tokenizeCode
  rw [show (backtick :: (v ++ backtick :: rest)).length =
    (v ++ backtick :: rest).length + 1 from by simp]
  simp only [tokenizeCodeFuel, findCloseCode_eval v rest hv hb, reduceIte]
  congr 1
  apply tokenizeCodeFuel_congr
  · simp
    omega
  · exact Nat.le_refl _

theorem tokenizeCode_text_char (c : Char) (s : Str) (hc : c ≠ backtick) :
    tokenizeCode (c :: s) = consText c (tokenizeCode s) := by
  unfold tokenizeCode
  rw [show (c :: s).length = s.length + 1 from by simp]
  simp only [tokenizeCodeFuel, if_neg hc]

theorem tokenizeCode_text_append (t s : Str) (ht : backtick ∉ t) :
    tokenizeCode (t ++ s) = List.foldr consText (tokenizeCode s) t := by
  induction t with
  | nil => simp
  | cons c cv ih =>
    simp only [List.mem_cons, not_or] at ht
    rw [List.cons_append, tokenizeCode_text_char c _ (Ne.symm ht.1), ih ht.2]
    rfl

theorem findCloseCurly_spec : ∀ (cs inner rest : Str),
    findCloseCurly cs = some (inner, rest) →
    cs = inner ++ rbrace :: rbrace :: rest := by
  intro cs
  induction cs with
  | nil => intro inner rest h; simp [findCloseCurly] at h
  | cons c cs' ih =>
    intro inner rest h
    simp only [findCloseCurly] at h
    split at h
    · rename_i hc
      cases cs' with
      | nil => cases h
      | cons c2 rest' =>
        dsimp only at h
        split at h
        · rename_i hc2
          simp only [Option.some.injEq, Prod.mk.injEq] at h
          obtain ⟨rfl, rfl⟩ := h
          simp [hc, hc2]
        · rcases hrec : findCloseCurly (c2 :: rest') with - | ⟨p1, p2⟩
          · rw [hrec] at h; cases h
          · rw [hrec] at h
            simp only [Option.map] at h
            simp only [Option.some.injEq, Prod.mk.injEq] at h
            obtain ⟨rfl, rfl⟩ := h
            rw [hc]
            have := ih p1 p2 hrec
            rw [show (rbrace :: p1) ++ rbrace :: rbrace :: p2 =
              rbrace :: (p1 ++ rbrace :: rbrace :: p2) from rfl]
            rw [← this]
    · rcases hrec : findCloseCurly cs' with - | ⟨p1, p2⟩
      · rw [hrec] at h; cases h
      · rw [hrec] at h
        simp only [Option.map] at h
        simp only [Option.some.injEq, Prod.mk.injEq] at h
        obtain ⟨rfl, rfl⟩ := h
        rw [show (c :: p1) ++ rbrace :: rbrace :: p2 =
          c :: (p1 ++ rbrace :: rbrace :: p2) from rfl]
        rw [← ih p1 p2 hrec]

theorem findCloseCurly_eval (v rest : Str) (hb : rbrace ∉ v) :
    findCloseCurly (v ++ rbrace :: rbrace :: rest) = some (v, rest) := by
  induction v with
  | nil =>
    simp only [List.nil_append, findCloseCurly, reduceIte]
  | cons c cv ih =>
    simp only [List.mem_cons, not_or] at hb
    have hne : c ≠ rbrace := fun h => hb.1 h.symm
    rw [List.cons_append]
    conv_lhs => rw [findCloseCurly.eq_def]
    dsimp only
    rw [if_neg hne, ih hb.2]
    rfl

theorem tokenizeCurlyFuel_congr : ∀ (f₁ f₂ : Nat) (s : Str),
    s.length ≤ f₁ → s.length ≤ f₂ →
    tokenizeCurlyFuel f₁ s = tokenizeCurlyFuel f₂ s := by
  intro f₁
  induction f₁ with
  | zero =>
    intro f₂ s h₁ _
    have hs : s = [] := List.length_eq_zero.1 (Nat.le_zero.1 h₁)
    subst hs
    cases f₂ <;> rfl
  | succ f ih =>
    intro f₂ s h₁ h₂
    cases s with
    | nil => cases f₂ <;> rfl
    | cons c cs =>
      cases f₂ with
      | zero => simp at h₂
      | succ f' =>
        have hl₁ : cs.length ≤ f := by simp at h₁; omega
        have hl₂ : cs.length ≤ f' := by simp at h₂; omega
        simp only [tokenizeCurlyFuel]
        by_cases hcb : c = lbrace
        · rw [if_pos hcb, if_pos hcb]
          cases cs with
          | nil => dsimp only; rw [ih f' [] (by simp) (by simp)]
          | cons c2 cs2 =>
            dsimp only
            by_cases hcb2 : c2 = lbrace
            · rw [if_pos hcb2, if_pos hcb2]
              rcases hfc : findCloseCurly cs2 with - | ⟨inner, rest⟩
              · dsimp only
                rw [ih f' (c2 :: cs2) hl₁ hl₂]
              · dsimp only
                have hcs := findCloseCurly_spec cs2 inner rest hfc
                have hrlen : rest.length + 2 ≤ cs2.length := by
                  rw [hcs]; simp
                have hc1 : rest.length ≤ f := by simp at hl₁; omega
                have hc2 : rest.length ≤ f' := by simp at hl₂; omega
                rw [ih f' rest hc1 hc2]
            · rw [if_neg hcb2, if_neg hcb2, ih f' (c2 :: cs2) hl₁ hl₂]
        · rw [if_neg hcb, if_neg hcb, ih f' cs hl₁ hl₂]

theorem tokenizeCurly_span (v rest : Str) (hb : rbrace ∉ v) :
    tokenizeCurly (lbrace :: lbrace :: (v ++ rbrace :: rbrace :: rest)) =
      .code v :: tokenizeCurly rest := by
  unfold tokenizeCurly
  rw [show (lbrace :: lbrace :: (v ++ rbrace :: rbrace :: rest)).length =
    ((v ++ rbrace :: rbrace :: rest).length + 1) + 1 from by simp]
  simp only [tokenizeCurlyFuel, reduceIte, findCloseCurly_eval v rest hb]
  congr 1
  apply tokenizeCurlyFuel_congr
  · simp; omega
  · exact Nat.le_refl _

theorem tokenizeCurly_text_char (c : Char) (s : Str) (hc : c ≠ lbrace) :
    tokenizeCurly (c :: s) = consText c (tokenizeCurly s) := by
  unfold tokenizeCurly
  rw [show (c :: s).length = s.length + 1 from by simp]
  simp only [tokenizeCurlyFuel, if_neg hc]

theorem tokenizeCurly_text_append (t s : Str) (ht : lbrace ∉ t) :
    tokenizeCurly (t ++ s) = List.foldr consText (tokenizeCurly s) t := by
  induction t with
  | nil => simp
  | cons c cv ih =>
    simp only [List.mem_cons, not_or] at ht
    have hne : c ≠ lbrace := fun h => ht.1 h.symm
    rw [List.cons_append, tokenizeCurly_text_char c _ hne, ih ht.2]
    rfl

theorem consTextList_eq (w : Str) (ts : List Token) (hw : w ≠ [])
    (hts : ∀ v rest, ts ≠ .text v :: rest) :
    List.foldr consText ts w = .text w :: ts := by
  induction w with
  | nil => cases hw rfl
  | cons c cw ih =>
    cases cw with
    | nil =>
      simp only [List.foldr]
      cases ts with
      | nil => rfl
      | cons t ts' =>
        cases t with
        | text v => exact absurd rfl (hts v ts')
        | code v => rfl
    | cons c2 cw2 =>
      rw [show List.foldr consText ts (c :: c2 :: cw2) =
        consText c (List.foldr consText ts (c2 :: cw2)) from rfl]
      rw [ih (by simp)]
      rfl

theorem getLast_snoc_eq (xs ys : Str) (x y : Char) (h : xs ++ [x] = ys ++ [y]) :
    x = y := by
  have h2 := congrArg List.reverse h
  simp only [List.reverse_append, List.reverse_singleton, List.singleton_append,
    List.cons.injEq] at h2
  exact h2.1

theorem jsTrim_of_trimFix (s : Str) (h : TrimFix s) : jsTrim s = s := by
  obtain ⟨hne, hhd, hlast⟩ := h
  obtain ⟨c, cs, rfl⟩ := List.exists_cons_of_ne_nil hne
  rcases List.eq_nil_or_concat (c :: cs) with hnil | ⟨ds, d, hd⟩
  · simp at hnil
  · rw [List.concat_eq_append] at hd
    unfold jsTrim
    rw [List.dropWhile_cons, if_neg (by rw [hhd c cs rfl]; simp)]
    rw [hd, List.reverse_append, List.reverse_singleton, List.singleton_append]
    rw [List.dropWhile_cons, if_neg (by rw [hlast ds d hd]; simp)]
    simp

theorem trimFix_jsTrim (s : Str) (h : jsTrim s ≠ []) : TrimFix (jsTrim s) := by
  refine ⟨h, ?_, ?_⟩
  · intro c cs hcs
    have hsuf : ((s.dropWhile isJsWs).reverse.dropWhile isJsWs) <:+
        (s.dropWhile isJsWs).reverse := List.dropWhile_suffix _
    obtain ⟨pre, hpre⟩ := hsuf
    have ht : s.dropWhile isJsWs = jsTrim s ++ pre.reverse := by
      have h2 := congrArg List.reverse hpre
      rw [List.reverse_append, List.reverse_reverse] at h2
      exact h2.symm
    rw [hcs] at ht
    exact dropWhile_head_false isJsWs s c (cs ++ pre.reverse) (by rw [ht]; rfl)
  · intro ds d hds
    have hu : ((s.dropWhile isJsWs).reverse.dropWhile isJsWs) = d :: ds.reverse := by
      have h0 : jsTrim s = ds ++ [d] := hds
      unfold jsTrim at h0
      have h2 := congrArg List.reverse h0
      rw [List.reverse_reverse, List.reverse_append, List.reverse_singleton,
        List.singleton_append] at h2
      exact h2
    exact dropWhile_head_false isJsWs _ d ds.reverse hu

theorem trimFix_append (a b : Str) (ha : TrimFix a) (hb : TrimFix b) :
    TrimFix (a ++ spaceChar :: b) := by
  obtain ⟨hane, hahd, -⟩ := ha
  obtain ⟨hbne, -, hblast⟩ := hb
  obtain ⟨c, cs, rfl⟩ := List.exists_cons_of_ne_nil hane
  obtain ⟨d, es, hrev⟩ := List.exists_cons_of_ne_nil
    (l := b.reverse) (by simpa using hbne)
  have hbeq : b = es.reverse ++ [d] := by
    have h2 := congrArg List.reverse hrev
    simpa using h2
  refine ⟨by simp, ?_, ?_⟩
  · intro c' cs' h
    rw [List.cons_append] at h
    injection h with h1 _
    rw [← h1]
    exact hahd c cs rfl
  · intro ds' d' h
    rw [hbeq] at h
    have h' : ((c :: cs) ++ spaceChar :: es.reverse) ++ [d] = ds' ++ [d'] := by
      rw [← h]
      simp
    have hde := getLast_snoc_eq _ _ _ _ h'
    rw [← hde]
    exact hblast es.reverse d hbeq

theorem mergeChain_nil (c : Str) : mergeChain c [] = (c, []) := by
  rfl

theorem mergeChain_step (c w v : Str) (ts : List Token) (hw : isAllWs w = true) :
    mergeChain c (.text w :: .code v :: ts) =
      mergeChain (jsTrim (c ++ spaceChar :: jsTrim v)) ts := by
  rw [mergeChain, if_pos hw]

theorem mergeChain_stop (c w v : Str) (ts : List Token) (hw : isAllWs w = false) :
    mergeChain c (.text w :: .code v :: ts) = (c, .text w :: .code v :: ts) := by
  rw [mergeChain, if_neg (by simp [hw])]

theorem mergeChain_ws : ∀ (pairs : List (Str × Str)) (combined : Str),
    TrimFix combined →
    (∀ p ∈ pairs, isAllWs p.1 = true ∧ jsTrim p.2 ≠ []) →
    mergeChain combined (pairs.flatMap (fun p => [.text p.1, .code p.2])) =
      (combined ++ pairs.flatMap (fun p => spaceChar :: jsTrim p.2), []) := by
  intro pairs
  induction pairs with
  | nil => intro combined _ _; simp [mergeChain_nil]
  | cons p rest ih =>
    intro combined hc hps
    obtain ⟨w, v⟩ := p
    have hp := hps ⟨w, v⟩ (by simp)
    rw [List.flatMap_cons, List.cons_append, List.cons_append, List.nil_append,
      mergeChain_step combined w v _ hp.1]
    have hfix : TrimFix (combined ++ spaceChar :: jsTrim v) :=
      trimFix_append combined (jsTrim v) hc (trimFix_jsTrim v hp.2)
    rw [jsTrim_of_trimFix _ hfix]
    rw [ih (combined ++ spaceChar :: jsTrim v) hfix
      (fun q hq => hps q (by simp [hq]))]
    rw [List.flatMap_cons]
    simp

theorem allWs_no_special (w : Str) (hw : isAllWs w = true) :
    backtick ∉ w ∧ lbrace ∉ w := by
  constructor <;> intro hmem <;>
    have := (List.all_eq_true.1 hw) _ hmem <;>
    revert this <;> decide

theorem tokenizeCode_chain : ∀ (pairs : List (Str × Str)) (v0 : Str),
    v0 ≠ [] → backtick ∉ v0 →
    (∀ p ∈ pairs, p.1 ≠ [] ∧ isAllWs p.1 = true ∧ p.2 ≠ [] ∧ backtick ∉ p.2) →
    tokenizeCode (chainWith codeSpanOf v0 pairs) =
      .code v0 :: pairs.flatMap (fun p => [.text p.1, .code p.2]) := by
  intro pairs
  induction pairs with
  | nil =>
    intro v0 hv0 hb0 _
    rw [show chainWith codeSpanOf v0 [] = backtick :: (v0 ++ backtick :: []) from by
      simp [chainWith, codeSpanOf]]
    rw [tokenizeCode_span v0 [] hv0 hb0]
    rfl
  | cons p rest ih =>
    intro v0 hv0 hb0 hps
    obtain ⟨w, v⟩ := p
    obtain ⟨hwne, hwws, hvne, hvb⟩ := hps ⟨w, v⟩ (by simp)
    have hwb : backtick ∉ w := (allWs_no_special w hwws).1
    rw [show chainWith codeSpanOf v0 ((w, v) :: rest) =
      backtick :: (v0 ++ backtick :: (w ++ chainWith codeSpanOf v rest)) from by
      simp [chainWith, codeSpanOf]]
    rw [tokenizeCode_span v0 _ hv0 hb0]
    rw [tokenizeCode_text_append w _ hwb]
    rw [ih v hvne hvb (fun q hq => hps q (by simp [hq]))]
    rw [consTextList_eq w _ hwne (by intro a b h; cases h)]
    rfl

theorem tokenizeCurly_chain : ∀ (pairs : List (Str × Str)) (v0 : Str),
    rbrace ∉ v0 →
    (∀ p ∈ pairs, p.1 ≠ [] ∧ isAllWs p.1 = true ∧ rbrace ∉ p.2) →
    tokenizeCurly (chainWith curlySpanOf v0 pairs) =
      .code v0 :: pairs.flatMap (fun p => [.text p.1, .code p.2]) := by
  intro pairs
  induction pairs with
  | nil =>
    intro v0 hb0 _
    rw [show chainWith curlySpanOf v0 [] =
      lbrace :: lbrace :: (v0 ++ rbrace :: rbrace :: []) from by
      simp [chainWith, curlySpanOf]]
    rw [tokenizeCurly_span v0 [] hb0]
    rfl
  | cons p rest ih =>
    intro v0 hb0 hps
    obtain ⟨w, v⟩ := p
    obtain ⟨hwne, hwws, hvb⟩ := hps ⟨w, v⟩ (by simp)
    have hwl : lbrace ∉ w := (allWs_no_special w hwws).2
    rw [show chainWith curlySpanOf v0 ((w, v) :: rest) =
      lbrace :: lbrace ::
        (v0 ++ rbrace :: rbrace :: (w ++ chainWith curlySpanOf v rest)) from by
      simp [chainWith, curlySpanOf]]
    rw [tokenizeCurly_span v0 _ hb0]
    rw [tokenizeCurly_text_append w _ hwl]
    rw [ih v hvb (fun q hq => hps q (by simp [hq]))]
    rw [consTextList_eq w _ hwne (by intro a b h; cases h)]
    rfl

theorem mergeTokensFuel_nil (n : Nat) : mergeTokensFuel n [] = [] := by
  cases n <;> rfl

theorem mergeTokens_chain (v0 : Str) (pairs : List (Str × Str))
    (hv0 : jsTrim v0 ≠ [])
    (hps : ∀ p ∈ pairs, isAllWs p.1 = true ∧ jsTrim p.2 ≠ []) :
    mergeTokens (.code v0 :: pairs.flatMap (fun p => [.text p.1, .code p.2])) =
      [.code (jsTrim v0 ++ pairs.flatMap (fun p => spaceChar :: jsTrim p.2))] := by
  unfold mergeTokens
  rw [show (Token.code v0 :: pairs.flatMap (fun p => [.text p.1, .code p.2])).length =
    (pairs.flatMap (fun p => [Token.text p.1, Token.code p.2])).length + 1 from by simp]
  rw [show mergeTokensFuel
      ((pairs.flatMap (fun p => [Token.text p.1, Token.code p.2])).length + 1)
      (Token.code v0 :: pairs.flatMap (fun p => [.text p.1, .code p.2])) =
    (Token.code (mergeChain (jsTrim v0)
        (pairs.flatMap (fun p => [.text p.1, .code p.2]))).1 ::
      mergeTokensFuel (pairs.flatMap (fun p => [Token.text p.1, Token.code p.2])).length
        (mergeChain (jsTrim v0)
          (pairs.flatMap (fun p => [.text p.1, .code p.2]))).2) from rfl]
  rw [mergeChain_ws pairs (jsTrim v0) (trimFix_jsTrim v0 hv0) hps]
  rw [mergeTokensFuel_nil]

theorem joinSpace_flat : ∀ (l : List Str) (x : Str),
    joinSpace (x :: l) = x ++ l.flatMap (fun v => spaceChar :: v) := by
  intro l
  induction l with
  | nil => intro x; simp [joinSpace]
  | cons y ys ih =>
    intro x
    rw [show joinSpace (x :: y :: ys) = x ++ spaceChar :: joinSpace (y :: ys) from rfl]
    rw [ih y, List.flatMap_cons]
    simp

theorem mergeTokens_stop (u0 w u1 : Str) (hw : isAllWs w = false) :
    mergeTokens [.code u0, .text w, .code u1] =
      [.code (jsTrim u0), .text w, .code (jsTrim u1)] := by
  unfold mergeTokens
  rw [show ([Token.code u0, Token.text w, Token.code u1]).length = 3 from rfl]
  rw [show mergeTokensFuel 3 [Token.code u0, Token.text w, Token.code u1] =
    Token.code (mergeChain (jsTrim u0) [Token.text w, Token.code u1]).1 ::
      mergeTokensFuel 2
        (mergeChain (jsTrim u0) [Token.text w, Token.code u1]).2 from rfl]
  rw [mergeChain_stop _ _ _ _ hw]
  rw [show mergeTokensFuel 2 [Token.text w, Token.code u1] =
    Token.text w :: mergeTokensFuel 1 [Token.code u1] from rfl]
  rw [show mergeTokensFuel 1 [Token.code u1] =
    Token.code (mergeChain (jsTrim u1) []).1 ::
      mergeTokensFuel 0 (mergeChain (jsTrim u1) []).2 from rfl]
  rw [mergeChain_nil]
  rfl

/-- C4: both merge passes collapse any chain of marked spans separated by
nonempty whitespace-only text into one marked span holding the trimmed
contents joined by single spaces in order; and non-whitespace text between two
spans prevents merging and survives verbatim (each span's content still being
individually trimmed). -/
theorem claim_C4 (v0 : Str) (pairs : List (Str × Str))
    (hv0t : jsTrim v0 ≠ []) (hv0b : backtick ∉ v0) (hv0r : rbrace ∉ v0)
    (hps : ∀ p ∈ pairs, p.1 ≠ [] ∧ isAllWs p.1 = true ∧ jsTrim p.2 ≠ [] ∧
      backtick ∉ p.2 ∧ rbrace ∉ p.2)
    (_hlen : 2 ≤ pairs.length)
    (u0 u1 w : Str)
    (hu0t : jsTrim u0 ≠ []) (hu0b : backtick ∉ u0) (hu0r : rbrace ∉ u0)
    (hu1t : jsTrim u1 ≠ []) (hu1b : backtick ∉ u1) (hu1r : rbrace ∉ u1)
    (hw : isAllWs w = false) (hwb : backtick ∉ w) (hwl : lbrace ∉ w) :
    mergeAdjacentCodeSpans (chainWith codeSpanOf v0 pairs) =
      codeSpanOf (joinSpace (jsTrim v0 :: pairs.map (fun p => jsTrim p.2))) ∧
    mergeAdjacentHtmlCurlyBlocks (chainWith curlySpanOf v0 pairs) =
      curlySpanOf (joinSpace (jsTrim v0 :: pairs.map (fun p => jsTrim p.2))) ∧
    mergeAdjacentCodeSpans (codeSpanOf u0 ++ w ++ codeSpanOf u1) =
      codeSpanOf (jsTrim u0) ++ w ++ codeSpanOf (jsTrim u1) ∧
    mergeAdjacentHtmlCurlyBlocks (curlySpanOf u0 ++ w ++ curlySpanOf u1) =
      curlySpanOf (jsTrim u0) ++ w ++ curlySpanOf (jsTrim u1) := by
  have hv0ne : v0 ≠ [] := by intro h; rw [h] at hv0t; exact hv0t rfl
  have hu0ne : u0 ≠ [] := by intro h; rw [h] at hu0t; exact hu0t rfl
  have hu1ne : u1 ≠ [] := by intro h; rw [h] at hu1t; exact hu1t rfl
  have hwne : w ≠ [] := by intro h; rw [h] at hw; simp [isAllWs] at hw
  have hjoin : jsTrim v0 ++
      pairs.flatMap (fun p => spaceChar :: jsTrim p.2) =
      joinSpace (jsTrim v0 :: pairs.map (fun p => jsTrim p.2)) := by
    rw [joinSpace_flat]
    rw [List.flatMap_map]
  refine ⟨?_, ?_, ?_, ?_⟩
  · unfold mergeAdjacentCodeSpans
    rw [tokenizeCode_chain pairs v0 hv0ne hv0b
      (fun p hp => ⟨(hps p hp).1, (hps p hp).2.1,
        fun h => (hps p hp).2.2.1 (by rw [h]; rfl), (hps p hp).2.2.2.1⟩)]
    rw [mergeTokens_chain v0 pairs hv0t
      (fun p hp => ⟨(hps p hp).2.1, (hps p hp).2.2.1⟩)]
    rw [show rebuildCode [Token.code (jsTrim v0 ++
        pairs.flatMap (fun p => spaceChar :: jsTrim p.2))] =
      codeSpanOf (jsTrim v0 ++
        pairs.flatMap (fun p => spaceChar :: jsTrim p.2)) from by
      simp [rebuildCode, codeSpanOf]]
    rw [hjoin]
  · unfold mergeAdjacentHtmlCurlyBlocks
    rw [tokenizeCurly_chain pairs v0 hv0r
      (fun p hp => ⟨(hps p hp).1, (hps p hp).2.1, (hps p hp).2.2.2.2⟩)]
    rw [mergeTokens_chain v0 pairs hv0t
      (fun p hp => ⟨(hps p hp).2.1, (hps p hp).2.2.1⟩)]
    rw [show rebuildCurly [Token.code (jsTrim v0 ++
        pairs.flatMap (fun p => spaceChar :: jsTrim p.2))] =
      curlySpanOf (jsTrim v0 ++
        pairs.flatMap (fun p => spaceChar :: jsTrim p.2)) from by
      simp [rebuildCurly, curlySpanOf]]
    rw [hjoin]
  · unfold mergeAdjacentCodeSpans
    rw [show codeSpanOf u0 ++ w ++ codeSpanOf u1 =
      backtick :: (u0 ++ backtick :: (w ++ codeSpanOf u1)) from by
      simp [codeSpanOf]]
    rw [tokenizeCode_span u0 _ hu0ne hu0b]
    rw [tokenizeCode_text_append w _ hwb]
    rw [show tokenizeCode (codeSpanOf u1) = [Token.code u1] from by
      have := tokenizeCode_chain [] u1 hu1ne hu1b (by simp)
      rw [show chainWith codeSpanOf u1 [] = codeSpanOf u1 from rfl] at this
      simpa using this]
    rw [consTextList_eq w _ hwne (by intro a b h; cases h)]
    rw [mergeTokens_stop u0 w u1 hw]
    simp [rebuildCode, codeSpanOf]
  · unfold mergeAdjacentHtmlCurlyBlocks
    rw [show curlySpanOf u0 ++ w ++ curlySpanOf u1 =
      lbrace :: lbrace ::
        (u0 ++ rbrace :: rbrace :: (w ++ curlySpanOf u1)) from by
      simp [curlySpanOf]]
    rw [tokenizeCurly_span u0 _ hu0r]
    rw [tokenizeCurly_text_append w _ hwl]
    rw [show tokenizeCurly (curlySpanOf u1) = [Token.code u1] from by
      have := tokenizeCurly_chain [] u1 hu1r (by simp)
      rw [show chainWith curlySpanOf u1 [] = curlySpanOf u1 from rfl] at this
      simpa using this]
    rw [consTextList_eq w _ hwne (by intro a b h; cases h)]
    rw [mergeTokens_stop u0 w u1 hw]
    simp [rebuildCurly, curlySpanOf]

theorem claim_C4_witness :
    mergeAdjacentCodeSpans (chainWith codeSpanOf (str "a")
        [(str " ", str "b"), (str " ", str "c")]) =
      codeSpanOf (joinSpace (jsTrim (str "a") ::
        ([(str " ", str "b"), (str " ", str "c")].map (fun p => jsTrim p.2)))) ∧
    mergeAdjacentHtmlCurlyBlocks (chainWith curlySpanOf (str "a")
        [(str " ", str "b"), (str " ", str "c")]) =
      curlySpanOf (joinSpace (jsTrim (str "a") ::
        ([(str " ", str "b"), (str " ", str "c")].map (fun p => jsTrim p.2)))) ∧
    mergeAdjacentCodeSpans (codeSpanOf (str "a") ++ str "x" ++ codeSpanOf (str "b")) =
      codeSpanOf (jsTrim (str "a")) ++ str "x" ++ codeSpanOf (jsTrim (str "b")) ∧
    mergeAdjacentHtmlCurlyBlocks
        (curlySpanOf (str "a") ++ str "x" ++ curlySpanOf (str "b")) =
      curlySpanOf (jsTrim (str "a")) ++ str "x" ++ curlySpanOf (jsTrim (str "b")) :=
  claim_C4 (str "a") [(str " ", str "b"), (str " ", str "c")]
    (by decide) (by decide) (by decide) (by decide) (by decide)
    (str "a") (str "b") (str "x")
    (by decide) (by decide) (by decide)
    (by decide) (by decide) (by decide)
    (by decide) (by decide) (by decide)
end

section
open SnippetMirror
theorem inject_id_all : ∀ n : Nat,
    (∀ v : XmlValue, sizeOf v ≤ n → containsWrKey v = false → injectVisit v = v) ∧
    (∀ l : List XmlValue, sizeOf l ≤ n → containsWrKeyList l = false →
      injectVisitList l = l) ∧
    (∀ fs : List (Str × XmlValue), sizeOf fs ≤ n → containsWrKeyFields fs = false →
      injectFields fs = fs) := by
  intro n
  induction n with
  | zero =>
    refine ⟨?_, ?_, ?_⟩ <;> intro x hs hc <;> exfalso <;> cases x <;> simp at hs
  | succ m ihm =>
    obtain ⟨ihv, ihl, ihf⟩ := ihm
    refine ⟨?_, ?_, ?_⟩
    · intro v hs hc
      cases v with
      | null => rw [injectVisit]
      | str s => rw [injectVisit]
      | arr items =>
        rw [containsWrKey] at hc
        rw [injectVisit, ihl items (by simp at hs; omega) hc]
      | obj fields =>
        rw [containsWrKey] at hc
        rw [injectVisit, ihf fields (by simp at hs; omega) hc]
    · intro l hs hc
      cases l with
      | nil => rw [injectVisitList]
      | cons v vs =>
        rw [containsWrKeyList] at hc
        simp only [Bool.or_eq_false_iff] at hc
        rw [injectVisitList, ihv v (by simp at hs; omega) hc.1,
          ihl vs (by simp at hs; omega) hc.2]
    · intro fs hs hc
      cases fs with
      | nil => rw [injectFields]
      | cons kv rest =>
        obtain ⟨k, v⟩ := kv
        rw [containsWrKeyFields] at hc
        simp only [Bool.or_eq_false_iff, decide_eq_false_iff_not] at hc
        rw [injectFields, if_neg hc.1.1, ihv v (by simp at hs; omega) hc.1.2,
          ihf rest (by simp at hs; omega) hc.2]

theorem injectVisit_id (v : XmlValue) (h : containsWrKey v = false) :
    injectVisit v = v :=
  (inject_id_all (sizeOf v)).1 v (Nat.le_refl _) h

theorem injectVisitList_id (l : List XmlValue) (h : containsWrKeyList l = false) :
    injectVisitList l = l :=
  (inject_id_all (sizeOf l)).2.1 l (Nat.le_refl _) h

theorem injectFields_id (fs : List (Str × XmlValue))
    (h : containsWrKeyFields fs = false) : injectFields fs = fs :=
  (inject_id_all (sizeOf fs)).2.2 fs (Nat.le_refl _) h

theorem lookupField_append (a b : List (Str × XmlValue)) (k : Str) :
    lookupField (a ++ b) k =
      match lookupField a k with
      | some v => some v
      | none => lookupField b k := by
  induction a with
  | nil => rw [List.nil_append]; rfl
  | cons kv rest ih =>
    obtain ⟨k', v⟩ := kv
    rw [List.cons_append, lookupField, lookupField]
    by_cases hk : k' = k
    · rw [if_pos hk, if_pos hk]
    · rw [if_neg hk, if_neg hk, ih]

theorem lookup_injectAug (s : Str) : ∀ (rkvs : List (Str × XmlValue)) (key : Str),
    lookupField (injectAugmentedFields s rkvs) key =
      (lookupField rkvs key).map (fun v =>
        if key = wtKey then injectAugWt v s
        else if key = wrKey then injectRunsValue v else injectVisit v) := by
  intro rkvs
  induction rkvs with
  | nil => intro key; rw [injectAugmentedFields]; rfl
  | cons kv rest ih =>
    obtain ⟨k, v⟩ := kv
    intro key
    rw [injectAugmentedFields, lookupField, lookupField]
    by_cases hk : k = key
    · subst hk
      rw [if_pos rfl, if_pos rfl]
      rfl
    · rw [if_neg hk, if_neg hk, ih]

theorem contains_lookup : ∀ (rkvs : List (Str × XmlValue)) (key : Str) (v : XmlValue),
    containsWrKeyFields rkvs = false → lookupField rkvs key = some v →
    containsWrKey v = false := by
  intro rkvs
  induction rkvs with
  | nil => intro key v _ hl; rw [lookupField] at hl; cases hl
  | cons kv rest ih =>
    obtain ⟨k, w⟩ := kv
    intro key v hc hl
    rw [containsWrKeyFields] at hc
    simp only [Bool.or_eq_false_iff, decide_eq_false_iff_not] at hc
    rw [lookupField] at hl
    by_cases hk : k = key
    · rw [if_pos hk] at hl
      injection hl with hl
      rw [← hl]
      exact hc.1.2
    · rw [if_neg hk] at hl
      exact ih key v hc.2 hl

theorem contains_lookup_wr (rkvs : List (Str × XmlValue))
    (hc : containsWrKeyFields rkvs = false) : lookupField rkvs wrKey = none := by
  induction rkvs with
  | nil => rfl
  | cons kv rest ih =>
    obtain ⟨k, v⟩ := kv
    rw [containsWrKeyFields] at hc
    simp only [Bool.or_eq_false_iff, decide_eq_false_iff_not] at hc
    rw [lookupField, if_neg hc.1.1]
    exact ih hc.2

theorem lookupField_append_some (a b : List (Str × XmlValue)) (k : Str)
    (v : XmlValue) (h : lookupField a k = some v) :
    lookupField (a ++ b) k = some v := by
  rw [lookupField_append, h]

theorem lookupField_append_none (a b : List (Str × XmlValue)) (k : Str)
    (h : lookupField a k = none) :
    lookupField (a ++ b) k = lookupField b k := by
  rw [lookupField_append, h]

theorem injectRunElems_map : ∀ rs : List XmlValue,
    injectRunElems rs = rs.map injectRunElem := by
  intro rs
  induction rs with
  | nil => rw [injectRunElems]; rfl
  | cons r rest ih => rw [injectRunElems, ih]; rfl

theorem injectRunElem_step (rkvs : List (Str × XmlValue))
    (hinstr : takeFieldInstructionString (.obj rkvs) ≠ []) :
    injectRunElem (.obj rkvs) =
      .obj (injectAugmentedFields
          (sentinelTextFor (takeFieldInstructionString (.obj rkvs))) rkvs ++
        (if (lookupField rkvs wtKey).isSome then []
         else [(wtKey, .arr [.str
           (sentinelTextFor (takeFieldInstructionString (.obj rkvs)))])])) := by
  rw [injectRunElem]
  simp only [if_neg hinstr]

/-- C5 (amended): in a tree whose single property is a `w:r` run collection,
injection processes each run independently; a run object with a nonempty
field-instruction string and no nested run collection gains exactly one new
visible-text leaf, appended after all pre-existing `w:t` leaves, equal to the
sentinels wrapped around the whitespace-collapsed, trimmed join of the
per-fragment-trimmed instruction texts, and every other property of the run
is unchanged. -/
theorem claim_C5_amended (runs : List XmlValue) (rkvs : List (Str × XmlValue))
    (hinstr : takeFieldInstructionString (.obj rkvs) ≠ [])
    (hnw : containsWrKeyFields rkvs = false) :
    injectFieldCodeSentinels (.obj [(wrKey, .arr runs)]) =
      .obj [(wrKey, .arr (runs.map injectRunElem))] ∧
    ∃ rkvs', injectRunElem (.obj rkvs) = .obj rkvs' ∧
      wtEntries rkvs' = wtEntries rkvs ++
        [.str (sentinelTextFor (takeFieldInstructionString (.obj rkvs)))] ∧
      ∀ key, key ≠ wtKey → lookupField rkvs' key = lookupField rkvs key := by
  constructor
  · rw [injectFieldCodeSentinels, injectVisit, injectFields, if_pos rfl, injectFields,
      injectRunsValue, injectRunElems_map]
  · rcases hwt : lookupField rkvs wtKey with - | w
    · refine ⟨injectAugmentedFields
          (sentinelTextFor (takeFieldInstructionString (.obj rkvs))) rkvs ++
        [(wtKey, .arr [.str
          (sentinelTextFor (takeFieldInstructionString (.obj rkvs)))])],
        ?_, ?_, ?_⟩
      · rw [injectRunElem_step rkvs hinstr, hwt]
        rfl
      · rw [wtEntries, wtEntries, hwt]
        rw [lookupField_append_none _ _ _ (by rw [lookup_injectAug, hwt]; rfl)]
        rw [lookupField, if_pos rfl]
        rfl
      · intro key hkey
        rcases hlk : lookupField rkvs key with - | v
        · rw [lookupField_append_none _ _ _ (by rw [lookup_injectAug, hlk]; rfl)]
          rw [lookupField, if_neg (fun h => hkey h.symm)]
          rfl
        · by_cases hkr : key = wrKey
          · subst hkr
            rw [contains_lookup_wr rkvs hnw] at hlk
            cases hlk
          · rw [lookupField_append_some _ _ _ (injectVisit v)
              (by rw [lookup_injectAug, hlk]
                  simp only [Option.map_some']
                  rw [if_neg hkey, if_neg hkr])]
            rw [injectVisit_id v (contains_lookup rkvs key v hnw hlk)]
    · have hw : containsWrKey w = false := contains_lookup rkvs wtKey w hnw hwt
      refine ⟨injectAugmentedFields
          (sentinelTextFor (takeFieldInstructionString (.obj rkvs))) rkvs,
        ?_, ?_, ?_⟩
      · rw [injectRunElem_step rkvs hinstr, hwt]
        simp
      · rw [wtEntries, wtEntries, hwt]
        rw [show lookupField (injectAugmentedFields
            (sentinelTextFor (takeFieldInstructionString (.obj rkvs))) rkvs) wtKey =
          some (injectAugWt w
            (sentinelTextFor (takeFieldInstructionString (.obj rkvs)))) from by
          rw [lookup_injectAug, hwt]
          simp]
        cases w with
        | arr items =>
          rw [containsWrKey] at hw
          simp only [injectAugWt, injectVisitList_id items hw]
        | null =>
          simp only [injectAugWt, injectVisit_id _ hw]
          rfl
        | str t =>
          simp only [injectAugWt, injectVisit_id _ hw]
          rfl
        | obj fs =>
          simp only [injectAugWt, injectVisit_id _ hw]
          rfl
      · intro key hkey
        rcases hlk : lookupField rkvs key with - | v
        · rw [lookup_injectAug, hlk]
          rfl
        · by_cases hkr : key = wrKey
          · subst hkr
            rw [contains_lookup_wr rkvs hnw] at hlk
            cases hlk
          · rw [lookup_injectAug, hlk]
            simp only [Option.map_some']
            rw [if_neg hkey, if_neg hkr,
              injectVisit_id v (contains_lookup rkvs key v hnw hlk)]

/-- C5 (counterexample): on a run whose single field-instruction fragment is
`a  b` (internal double space), the injected leaf is the sentinel-wrapped
`a b` — the code collapses internal whitespace runs — while the claim's
formula `OPEN + trim(join(F1..Fn, sp)) + CLOSE` keeps the double space, so
the claim's equality fails. -/
theorem claim_C5_counterexample :
    injectFieldCodeSentinels parentC5 =
      .obj [(wrKey, .arr [.obj
        [(instrKey, .arr [.str (str "a  b")]),
         (wtKey, .arr [.str (str "==::a b::==")])]])] ∧
    str "==::a b::==" ≠
      SENTINEL_PRE ++ jsTrim (joinSpace [str "a  b"]) ++ SENTINEL_POST := by
  constructor
  · simp [parentC5, runC5, injectFieldCodeSentinels, injectVisit, injectVisitList,
      injectFields, injectRunsValue, injectRunElems, injectRunElem,
      injectAugmentedFields, injectAugWt, takeFieldInstructionString,
      collectInstrTexts, collectInstrTextsList, collectInstrTextsFields,
      instrFragsOf, extractXmlElementTextContent, extractXmlListTextContent,
      lookupField, instrKey, wrKey, wtKey, underscoreKey, joinSpace, collapseWs,
      collapseWsFuel, jsTrim, isJsWs, sentinelTextFor, SENTINEL_PRE, SENTINEL_POST,
      str, spaceChar]
  · decide

/-- Witness for the amended claim C5 at the concrete run holding the single
instruction fragment `a  b`. -/
theorem claim_C5_witness :
    injectFieldCodeSentinels (.obj [(wrKey, .arr [runC5])]) =
      .obj [(wrKey, .arr ([runC5].map injectRunElem))] ∧
    ∃ rkvs', injectRunElem (.obj [(instrKey, .arr [.str (str "a  b")])]) = .obj rkvs' ∧
      wtEntries rkvs' = wtEntries [(instrKey, .arr [.str (str "a  b")])] ++
        [.str (sentinelTextFor (takeFieldInstructionString
          (.obj [(instrKey, .arr [.str (str "a  b")])])))] ∧
      ∀ key, key ≠ wtKey →
        lookupField rkvs' key = lookupField [(instrKey, .arr [.str (str "a  b")])] key :=
  claim_C5_amended [runC5] [(instrKey, .arr [.str (str "a  b")])]
    (by simp [takeFieldInstructionString, collectInstrTexts, collectInstrTextsList,
      collectInstrTextsFields, instrFragsOf, extractXmlElementTextContent,
      extractXmlListTextContent, lookupField, instrKey, underscoreKey, joinSpace,
      collapseWs, collapseWsFuel, jsTrim, isJsWs, str, spaceChar])
    (by simp [containsWrKeyFields, containsWrKey, containsWrKeyList, instrKey,
      wrKey, str])
end

section
open SnippetMirror
theorem noOcc_nil (q : Str) (hq : q ≠ []) : NoOcc q [] := by
  intro h
  exact hq (List.eq_nil_of_infix_nil h)

theorem noOcc_cons (q : Str) (c : Char) (b : Str) (hq : q ≠ []) (hc : c ∉ q)
    (hb : NoOcc q b) : NoOcc q (c :: b) := by
  rintro ⟨s, t, h⟩
  cases s with
  | nil =>
    rw [List.nil_append] at h
    cases q with
    | nil => exact hq rfl
    | cons a q' =>
      rw [List.cons_append] at h
      injection h with h1 _
      exact hc (by rw [← h1]; exact List.mem_cons_self a q')
  | cons c' s' =>
    rw [List.cons_append] at h
    injection h with _ h2
    exact hb ⟨s', t, h2⟩

theorem infix_append_split (q a b : Str) (h : q <:+: a ++ b) :
    q <:+: a ∨ q <:+: b ∨
      ∃ p1 p2, q = p1 ++ p2 ∧ p1 ≠ [] ∧ p2 ≠ [] ∧ p1 <:+ a ∧ p2 <+: b := by
  obtain ⟨s, t, hst⟩ := h
  rw [show s ++ q ++ t = s ++ (q ++ t) from by simp] at hst
  rcases List.append_eq_append_iff.1 hst with ⟨a', ha, hqt⟩ | ⟨b', hs, hb⟩
  · rcases List.append_eq_append_iff.1 hqt with ⟨c', hac, ht⟩ | ⟨d, hq, hbd⟩
    · left
      exact ⟨s, c', by rw [ha, hac]; simp⟩
    · rcases eq_or_ne a' [] with rfl | ha'
      · right; left
        rw [List.nil_append] at hq
        exact ⟨[], t, by rw [hbd, hq]; simp⟩
      · rcases eq_or_ne d [] with rfl | hd
        · left
          rw [List.append_nil] at hq
          exact ⟨s, [], by rw [ha, hq]; simp⟩
        · right; right
          exact ⟨a', d, hq, ha', hd, ⟨s, by rw [ha]⟩, ⟨t, by rw [hbd]⟩⟩
  · right; left
    exact ⟨b', t, by rw [hb]; simp⟩

theorem noOcc_append_cons (q a b : Str) (c : Char) (hq : q ≠ []) (hc : c ∉ q)
    (ha : NoOcc q a) (hb : NoOcc q b) : NoOcc q (a ++ c :: b) := by
  intro h
  rcases infix_append_split q a (c :: b) h with h1 | h2 | ⟨p1, p2, hq12, hp1, hp2, -, hpre⟩
  · exact ha h1
  · exact noOcc_cons q c b hq hc hb h2
  · cases p2 with
    | nil => exact hp2 rfl
    | cons x p2' =>
      obtain ⟨t, ht⟩ := hpre
      rw [List.cons_append] at ht
      injection ht with h1 _
      exact hc (by rw [← h1, hq12]; simp)

theorem noOcc_append_disjoint (q a b : Str) (hq : q ≠ [])
    (ha : ∀ c ∈ a, c ∉ q) (hb : NoOcc q b) : NoOcc q (a ++ b) := by
  intro h
  rcases infix_append_split q a b h with h1 | h2 | ⟨p1, p2, hq12, hp1, -, hsuf, -⟩
  · cases q with
    | nil => exact hq rfl
    | cons x q' =>
      obtain ⟨s, t, hst⟩ := h1
      have hx : x ∈ a := by
        rw [← hst]
        simp
      exact ha x hx (by simp)
  · exact hb h2
  · cases p1 with
    | nil => exact hp1 rfl
    | cons x p1' =>
      obtain ⟨s, hs⟩ := hsuf
      have hx : x ∈ a := by
        rw [← hs]
        simp
      exact ha x hx (by rw [hq12]; simp)

theorem noOcc_of_infix (q s s' : Str) (hsub : s' <:+: s) (h : NoOcc q s) :
    NoOcc q s' := fun hocc => h (hocc.trans hsub)

theorem jsTrim_within (s : Str) : jsTrim s <:+: s := by
  have h1 : ((s.dropWhile isJsWs).reverse.dropWhile isJsWs) <:+
      (s.dropWhile isJsWs).reverse := List.dropWhile_suffix _
  obtain ⟨pre, hpre⟩ := h1
  have h2 : s.dropWhile isJsWs = jsTrim s ++ pre.reverse := by
    have h3 := congrArg List.reverse hpre
    rw [List.reverse_append, List.reverse_reverse] at h3
    exact h3.symm
  obtain ⟨s0, hs0⟩ := List.dropWhile_suffix (l := s) isJsWs
  refine ⟨s0, pre.reverse, ?_⟩
  calc s0 ++ jsTrim s ++ pre.reverse = s0 ++ (jsTrim s ++ pre.reverse) := by simp
    _ = s0 ++ s.dropWhile isJsWs := by rw [h2]
    _ = s := hs0

theorem noOcc_jsTrim (q s : Str) (h : NoOcc q s) : NoOcc q (jsTrim s) :=
  noOcc_of_infix q s (jsTrim s) (jsTrim_within s) h

theorem replaceAllFuel_nil (pat rep : Str) (fuel : Nat) :
    replaceAllFuel pat rep fuel [] = [] := by
  cases fuel <;> rfl

theorem replaceAllFuel_zero (pat rep : Str) (c : Char) (cs : Str) :
    replaceAllFuel pat rep 0 (c :: cs) = c :: cs := rfl

theorem replaceAllFuel_succ (pat rep : Str) (f : Nat) (c : Char) (cs : Str) :
    replaceAllFuel pat rep (f + 1) (c :: cs) =
      if pat ≠ [] ∧ pat.isPrefixOf (c :: cs) then
        rep ++ replaceAllFuel pat rep f ((c :: cs).drop pat.length)
      else
        c :: replaceAllFuel pat rep f cs := rfl

theorem replaceAll_pre_transfer (pat rep : Str) (hrepne : rep ≠ []) :
    ∀ (fuel : Nat) (s p : Str), p <+: replaceAllFuel pat rep fuel s →
      (∀ c ∈ rep, c ∉ p) → p <+: s := by
  intro fuel
  induction fuel with
  | zero =>
    intro s p hp _
    cases s with
    | nil => rwa [replaceAllFuel_nil] at hp
    | cons c cs => rwa [replaceAllFuel_zero] at hp
  | succ f ih =>
    intro s p hp hrp
    cases s with
    | nil => rwa [replaceAllFuel_nil] at hp
    | cons c cs =>
      rw [replaceAllFuel_succ] at hp
      split at hp
      · cases p with
        | nil => exact List.nil_prefix
        | cons x p' =>
          exfalso
          cases rep with
          | nil => exact hrepne rfl
          | cons r0 rep' =>
            obtain ⟨t, ht⟩ := hp
            injection ht with h1 _
            exact hrp r0 (by simp) (by rw [h1]; simp)
      · cases p with
        | nil => exact List.nil_prefix
        | cons x p' =>
          obtain ⟨t, ht⟩ := hp
          injection ht with h1 h2
          have := ih cs p' ⟨t, h2⟩ (fun d hd hdp => hrp d hd (by simp [hdp]))
          rw [← h1]
          exact List.cons_prefix_cons.2 ⟨rfl, this⟩

theorem replaceAll_removes (pat rep : Str) (hpat : pat ≠ []) (hrepne : rep ≠ [])
    (hrep : ∀ c ∈ rep, c ∉ pat) :
    ∀ (fuel : Nat) (s : Str), s.length ≤ fuel →
      NoOcc pat (replaceAllFuel pat rep fuel s) := by
  intro fuel
  induction fuel with
  | zero =>
    intro s hs
    have : s = [] := List.length_eq_zero.1 (Nat.le_zero.1 hs)
    subst this
    rw [replaceAllFuel_nil]
    exact noOcc_nil pat hpat
  | succ f ih =>
    intro s hs
    cases s with
    | nil =>
      rw [replaceAllFuel_nil]
      exact noOcc_nil pat hpat
    | cons c cs =>
      have hplen : 1 ≤ pat.length := by
        cases pat with
        | nil => exact absurd rfl hpat
        | cons a b => simp
      rw [replaceAllFuel_succ]
      split
      · apply noOcc_append_disjoint pat rep _ hpat hrep
        apply ih
        rw [List.length_drop]
        simp only [List.length_cons] at hs ⊢
        omega
      · rename_i hif
        rw [not_and] at hif
        have hnp : ¬ pat <+: (c :: cs) := by
          intro hpre
          exact hif hpat (List.isPrefixOf_iff_prefix.2 hpre)
        rintro ⟨s0, t, hst⟩
        cases s0 with
        | nil =>
          rw [List.nil_append] at hst
          cases pat with
          | nil => exact hpat rfl
          | cons p0 pat' =>
            injection hst with h1 h2
            have hp' : pat' <+: replaceAllFuel (p0 :: pat') rep f cs := ⟨t, h2⟩
            have := replaceAll_pre_transfer (p0 :: pat') rep hrepne f cs pat' hp'
              (fun d hd hdp => hrep d hd (by simp [hdp]))
            apply hnp
            rw [← h1]
            exact List.cons_prefix_cons.2 ⟨rfl, this⟩
        | cons x s0' =>
          injection hst with _ h2
          exact ih cs (by simp only [List.length_cons] at hs; omega) ⟨s0', t, h2⟩

theorem replaceAll_preserves (pat rep q : Str) (hq : q ≠ []) (hrepne : rep ≠ [])
    (hrep : ∀ c ∈ rep, c ∉ q) :
    ∀ (fuel : Nat) (s : Str), NoOcc q s →
      NoOcc q (replaceAllFuel pat rep fuel s) := by
  intro fuel
  induction fuel with
  | zero =>
    intro s hns
    cases s with
    | nil => rw [replaceAllFuel_nil]; exact noOcc_nil q hq
    | cons c cs => rwa [replaceAllFuel_zero]
  | succ f ih =>
    intro s hns
    cases s with
    | nil => rw [replaceAllFuel_nil]; exact noOcc_nil q hq
    | cons c cs =>
      rw [replaceAllFuel_succ]
      split
      · apply noOcc_append_disjoint q rep _ hq hrep
        apply ih
        exact noOcc_of_infix q (c :: cs) _
          (List.IsSuffix.isInfix (List.drop_suffix _ _)) hns
      · rintro ⟨s0, t, hst⟩
        cases s0 with
        | nil =>
          rw [List.nil_append] at hst
          cases q with
          | nil => exact hq rfl
          | cons q0 q' =>
            injection hst with h1 h2
            have hp' : q' <+: replaceAllFuel pat rep f cs := ⟨t, h2⟩
            have hq' := replaceAll_pre_transfer pat rep hrepne f cs q' hp'
              (fun d hd hdp => hrep d hd (by simp [hdp]))
            apply hns
            obtain ⟨t2, ht2⟩ := hq'
            refine ⟨[], t2, ?_⟩
            rw [List.nil_append, ← h1, List.cons_append, ht2]
        | cons x s0' =>
          injection hst with _ h2
          have hcs : NoOcc q cs :=
            noOcc_of_infix q (c :: cs) cs
              (List.IsSuffix.isInfix ⟨[c], rfl⟩) hns
          exact ih cs hcs ⟨s0', t, h2⟩

theorem noTT_nil : noTT [] = true := rfl

theorem noTT_single (t : Token) : noTT [t] = true := by
  cases t <;> rfl

theorem noTT_code (u : Str) (ts : List Token) : noTT (.code u :: ts) = noTT ts := by
  cases ts with
  | nil => rfl
  | cons t2 ts' => simp [noTT, Token.isText]

theorem noTT_text_shape (v v' : Str) (ts : List Token) :
    noTT (.text v :: ts) = noTT (.text v' :: ts) := by
  cases ts with
  | nil => rfl
  | cons t2 ts' => rfl

theorem noTT_tail (t : Token) (ts : List Token) (h : noTT (t :: ts) = true) :
    noTT ts = true := by
  cases ts with
  | nil => rfl
  | cons t2 ts' =>
    rw [show noTT (t :: t2 :: ts') = (!(t.isText && t2.isText) && noTT (t2 :: ts'))
      from rfl] at h
    rw [Bool.and_eq_true] at h
    exact h.2

theorem infix_cons_lift (q : Str) (c : Char) (s : Str) (h : q <:+: s) :
    q <:+: c :: s :=
  h.trans (List.IsSuffix.isInfix ⟨[c], rfl⟩)

theorem consText_struct (c : Char) (s : Str) (ts : List Token)
    (hvals : ∀ t ∈ ts, Token.value t <:+: s)
    (hhead : ∀ w ts', ts = .text w :: ts' → w <+: s)
    (hnt : noTT ts = true) :
    (∀ t ∈ consText c ts, Token.value t <:+: c :: s) ∧
    (∀ w ts', consText c ts = .text w :: ts' → w <+: c :: s) ∧
    noTT (consText c ts) = true := by
  cases ts with
  | nil =>
    refine ⟨?_, ?_, ?_⟩
    · intro t ht
      rw [show consText c [] = [.text [c]] from rfl] at ht
      rcases List.mem_singleton.1 ht with rfl
      exact (List.cons_prefix_cons.2 ⟨rfl, List.nil_prefix⟩).isInfix
    · intro w ts' hw
      rw [show consText c [] = [.text [c]] from rfl] at hw
      injection hw with h1 _
      injection h1 with h1
      rw [← h1]
      exact List.cons_prefix_cons.2 ⟨rfl, List.nil_prefix⟩
    · rfl
  | cons t ts₁ =>
    cases t with
    | text w =>
      refine ⟨?_, ?_, ?_⟩
      · intro t ht
        rw [show consText c (.text w :: ts₁) = .text (c :: w) :: ts₁ from rfl] at ht
        rcases List.mem_cons.1 ht with rfl | hmem
        · exact (List.cons_prefix_cons.2 ⟨rfl, hhead w ts₁ rfl⟩).isInfix
        · exact infix_cons_lift _ c s (hvals t (List.mem_cons_of_mem _ hmem))
      · intro w' ts' hw
        rw [show consText c (.text w :: ts₁) = .text (c :: w) :: ts₁ from rfl] at hw
        injection hw with h1 _
        injection h1 with h1
        rw [← h1]
        exact List.cons_prefix_cons.2 ⟨rfl, hhead w ts₁ rfl⟩
      · rw [show consText c (.text w :: ts₁) = .text (c :: w) :: ts₁ from rfl,
          noTT_text_shape (c :: w) w]
        exact hnt
    | code u =>
      refine ⟨?_, ?_, ?_⟩
      · intro t ht
        rw [show consText c (.code u :: ts₁) = .text [c] :: .code u :: ts₁ from rfl] at ht
        rcases List.mem_cons.1 ht with rfl | hmem
        · exact (List.cons_prefix_cons.2 ⟨rfl, List.nil_prefix⟩).isInfix
        · exact infix_cons_lift _ c s (hvals t hmem)
      · intro w' ts' hw
        rw [show consText c (.code u :: ts₁) = .text [c] :: .code u :: ts₁ from rfl] at hw
        injection hw with h1 _
        injection h1 with h1
        rw [← h1]
        exact List.cons_prefix_cons.2 ⟨rfl, List.nil_prefix⟩
      · rw [show consText c (.code u :: ts₁) = .text [c] :: .code u :: ts₁ from rfl]
        rw [show noTT (.text [c] :: .code u :: ts₁) =
          (!((Token.text [c]).isText && (Token.code u).isText) && noTT (.code u :: ts₁))
          from rfl]
        simp only [Token.isText, Bool.and_false, Bool.not_false, Bool.true_and]
        exact hnt

theorem tokenizeCodeFuel_struct : ∀ (fuel : Nat) (s : Str),
    (∀ t ∈ tokenizeCodeFuel fuel s, Token.value t <:+: s) ∧
    (∀ w ts', tokenizeCodeFuel fuel s = .text w :: ts' → w <+: s) ∧
    noTT (tokenizeCodeFuel fuel s) = true := by
  intro fuel
  induction fuel with
  | zero =>
    intro s
    have hz : tokenizeCodeFuel 0 s = [] := by cases s <;> rfl
    rw [hz]
    refine ⟨?_, ?_, rfl⟩
    · intro t ht
      cases ht
    · intro w ts' hw
      cases hw
  | succ f ih =>
    intro s
    cases s with
    | nil =>
      refine ⟨?_, ?_, rfl⟩
      · intro t ht
        cases ht
      · intro w ts' hw
        cases hw
    | cons c cs =>
      by_cases hcb : c = backtick
      · subst hcb
        rcases hfc : findCloseCode cs with - | ⟨inner, rest⟩
        · have heq : tokenizeCodeFuel (f + 1) (backtick :: cs) =
              consText backtick (tokenizeCodeFuel f cs) := by
            simp only [tokenizeCodeFuel, reduceIte, hfc]
          rw [heq]
          obtain ⟨ihv, ihh, ihn⟩ := ih cs
          exact consText_struct backtick cs _ ihv ihh ihn
        · have heq : tokenizeCodeFuel (f + 1) (backtick :: cs) =
              .code inner :: tokenizeCodeFuel f rest := by
            simp only [tokenizeCodeFuel, reduceIte, hfc]
          obtain ⟨hcs, -, -⟩ := findCloseCode_spec cs inner rest hfc
          have hrest : rest <:+ backtick :: cs := by
            refine ⟨backtick :: inner ++ [backtick], ?_⟩
            rw [hcs]
            simp
          obtain ⟨ihv, -, ihn⟩ := ih rest
          rw [heq]
          refine ⟨?_, ?_, ?_⟩
          · intro t ht
            rcases List.mem_cons.1 ht with rfl | hmem
            · exact ⟨[backtick], backtick :: rest, by rw [hcs]; rfl⟩
            · exact (ihv t hmem).trans (List.IsSuffix.isInfix hrest)
          · intro w ts' hw
            injection hw with h1 _
            cases h1
          · rw [noTT_code]
            exact ihn
      · have heq : tokenizeCodeFuel (f + 1) (c :: cs) =
            consText c (tokenizeCodeFuel f cs) := by
          simp only [tokenizeCodeFuel, if_neg hcb]
        rw [heq]
        obtain ⟨ihv, ihh, ihn⟩ := ih cs
        exact consText_struct c cs _ ihv ihh ihn

theorem tokenizeCurlyFuel_struct : ∀ (fuel : Nat) (s : Str),
    (∀ t ∈ tokenizeCurlyFuel fuel s, Token.value t <:+: s) ∧
    (∀ w ts', tokenizeCurlyFuel fuel s = .text w :: ts' → w <+: s) ∧
    noTT (tokenizeCurlyFuel fuel s) = true := by
  intro fuel
  induction fuel with
  | zero =>
    intro s
    have hz : tokenizeCurlyFuel 0 s = [] := by cases s <;> rfl
    rw [hz]
    refine ⟨?_, ?_, rfl⟩
    · intro t ht
      cases ht
    · intro w ts' hw
      cases hw
  | succ f ih =>
    intro s
    cases s with
    | nil =>
      refine ⟨?_, ?_, rfl⟩
      · intro t ht
        cases ht
      · intro w ts' hw
        cases hw
    | cons c cs =>
      by_cases hcb : c = lbrace
      · subst hcb
        cases cs with
        | nil =>
          have heq : tokenizeCurlyFuel (f + 1) [lbrace] =
              consText lbrace (tokenizeCurlyFuel f []) := by
            simp only [tokenizeCurlyFuel, reduceIte]
          rw [heq]
          obtain ⟨ihv, ihh, ihn⟩ := ih []
          exact consText_struct lbrace [] _ ihv ihh ihn
        | cons c2 cs2 =>
          by_cases hcb2 : c2 = lbrace
          · subst hcb2
            rcases hfc : findCloseCurly cs2 with - | ⟨inner, rest⟩
            · have heq : tokenizeCurlyFuel (f + 1) (lbrace :: lbrace :: cs2) =
                  consText lbrace (tokenizeCurlyFuel f (lbrace :: cs2)) := by
                simp only [tokenizeCurlyFuel, reduceIte, hfc]
              rw [heq]
              obtain ⟨ihv, ihh, ihn⟩ := ih (lbrace :: cs2)
              exact consText_struct lbrace (lbrace :: cs2) _ ihv ihh ihn
            · have heq : tokenizeCurlyFuel (f + 1) (lbrace :: lbrace :: cs2) =
                  .code inner :: tokenizeCurlyFuel f rest := by
                simp only [tokenizeCurlyFuel, reduceIte, hfc]
              have hcs := findCloseCurly_spec cs2 inner rest hfc
              have hrest : rest <:+ lbrace :: lbrace :: cs2 := by
                refine ⟨lbrace :: lbrace :: inner ++ [rbrace, rbrace], ?_⟩
                rw [hcs]
                simp
              obtain ⟨ihv, -, ihn⟩ := ih rest
              rw [heq]
              refine ⟨?_, ?_, ?_⟩
              · intro t ht
                rcases List.mem_cons.1 ht with rfl | hmem
                · exact ⟨[lbrace, lbrace], rbrace :: rbrace :: rest, by rw [hcs]; rfl⟩
                · exact (ihv t hmem).trans (List.IsSuffix.isInfix hrest)
              · intro w ts' hw
                injection hw with h1 _
                cases h1
              · rw [noTT_code]
                exact ihn
          · have heq : tokenizeCurlyFuel (f + 1) (lbrace :: c2 :: cs2) =
                consText lbrace (tokenizeCurlyFuel f (c2 :: cs2)) := by
              simp only [tokenizeCurlyFuel, reduceIte, if_neg hcb2]
            rw [heq]
            obtain ⟨ihv, ihh, ihn⟩ := ih (c2 :: cs2)
            exact consText_struct lbrace (c2 :: cs2) _ ihv ihh ihn
      · have heq : tokenizeCurlyFuel (f + 1) (c :: cs) =
            consText c (tokenizeCurlyFuel f cs) := by
          simp only [tokenizeCurlyFuel, if_neg hcb]
        rw [heq]
        obtain ⟨ihv, ihh, ihn⟩ := ih cs
        exact consText_struct c cs _ ihv ihh ihn

theorem mergeChain_code (c u : Str) (ts : List Token) :
    mergeChain c (.code u :: ts) = (c, .code u :: ts) := rfl

theorem mergeChain_one_text (c w : Str) :
    mergeChain c [.text w] = (c, [.text w]) := rfl

theorem mergeChain_two_text (c w w2 : Str) (ts : List Token) :
    mergeChain c (.text w :: .text w2 :: ts) = (c, .text w :: .text w2 :: ts) := rfl

theorem mergeChain_pres (q : Str) (hq : q ≠ []) (hsp : spaceChar ∉ q) :
    ∀ (n : Nat) (ts : List Token) (c : Str), ts.length ≤ n →
      (∀ t ∈ ts, NoOcc q (Token.value t)) → NoOcc q c →
      NoOcc q (mergeChain c ts).1 ∧
      (∀ t ∈ (mergeChain c ts).2, NoOcc q (Token.value t)) ∧
      (noTT ts = true → noTT (mergeChain c ts).2 = true) := by
  intro n
  induction n with
  | zero =>
    intro ts c hlen hvals hc
    have : ts = [] := List.length_eq_zero.1 (Nat.le_zero.1 hlen)
    subst this
    rw [mergeChain_nil]
    exact ⟨hc, hvals, fun h => h⟩
  | succ m ih =>
    intro ts c hlen hvals hc
    match ts with
    | [] =>
      rw [mergeChain_nil]
      exact ⟨hc, hvals, fun h => h⟩
    | .code u :: ts1 =>
      rw [mergeChain_code]
      exact ⟨hc, hvals, fun h => h⟩
    | [.text w] =>
      rw [mergeChain_one_text]
      exact ⟨hc, hvals, fun h => h⟩
    | .text w :: .text w2 :: ts2 =>
      rw [mergeChain_two_text]
      exact ⟨hc, hvals, fun h => h⟩
    | .text w :: .code v :: ts2 =>
      rcases hb : isAllWs w with - | -
      · rw [mergeChain_stop _ _ _ _ hb]
        exact ⟨hc, hvals, fun h => h⟩
      · rw [mergeChain_step _ _ _ _ hb]
        have hv : NoOcc q v := hvals (.code v) (by simp)
        have hc' : NoOcc q (jsTrim (c ++ spaceChar :: jsTrim v)) :=
          noOcc_jsTrim q _
            (noOcc_append_cons q c (jsTrim v) spaceChar hq hsp hc
              (noOcc_jsTrim q v hv))
        have hlen2 : ts2.length ≤ m := by
          simp only [List.length_cons] at hlen
          omega
        have hvals2 : ∀ t ∈ ts2, NoOcc q (Token.value t) :=
          fun t ht => hvals t (by simp [ht])
        obtain ⟨g1, g2, g3⟩ := ih ts2 _ hlen2 hvals2 hc'
        exact ⟨g1, g2, fun h => g3 (noTT_tail _ _ (noTT_tail _ _ h))⟩

theorem mergeTokensFuel_code_step (m : Nat) (u : Str) (ts : List Token) :
    mergeTokensFuel (m + 1) (.code u :: ts) =
      .code (mergeChain (jsTrim u) ts).1 ::
        mergeTokensFuel m (mergeChain (jsTrim u) ts).2 := rfl

theorem mergeTokensFuel_text_step (m : Nat) (v : Str) (ts : List Token) :
    mergeTokensFuel (m + 1) (.text v :: ts) = .text v :: mergeTokensFuel m ts := rfl

theorem mergeTokensFuel_pres (q : Str) (hq : q ≠ []) (hsp : spaceChar ∉ q) :
    ∀ (m : Nat) (ts : List Token),
      (∀ t ∈ ts, NoOcc q (Token.value t)) → noTT ts = true →
      (∀ t ∈ mergeTokensFuel m ts, NoOcc q (Token.value t)) ∧
      noTT (mergeTokensFuel m ts) = true ∧
      (∀ w ts', mergeTokensFuel m ts = .text w :: ts' → ∃ ts₂, ts = .text w :: ts₂) := by
  intro m
  induction m with
  | zero =>
    intro ts hvals hnt
    have hz : mergeTokensFuel 0 ts = ts := by cases ts <;> rfl
    rw [hz]
    exact ⟨hvals, hnt, fun w ts' h => ⟨ts', h⟩⟩
  | succ m ih =>
    intro ts hvals hnt
    match ts with
    | [] =>
      rw [mergeTokensFuel_nil]
      exact ⟨fun t ht => absurd ht (List.not_mem_nil t), rfl, fun w ts' h => by cases h⟩
    | .text v :: ts1 =>
      rw [mergeTokensFuel_text_step]
      obtain ⟨g1, g2, g3⟩ := ih ts1 (fun t ht => hvals t (by simp [ht]))
        (noTT_tail _ _ hnt)
      refine ⟨?_, ?_, ?_⟩
      · intro t ht
        rcases List.mem_cons.1 ht with rfl | hmem
        · exact hvals (.text v) (by simp)
        · exact g1 t hmem
      · rcases hout : mergeTokensFuel m ts1 with - | ⟨t2, rest2⟩
        · exact noTT_single _
        · have ht2 : t2.isText = false := by
            cases t2 with
            | text w2 =>
              obtain ⟨ts₂, hts₂⟩ := g3 w2 rest2 hout
              rw [hts₂] at hnt
              rw [show noTT (.text v :: .text w2 :: ts₂) =
                (!((Token.text v).isText && (Token.text w2).isText) &&
                  noTT (.text w2 :: ts₂)) from rfl] at hnt
              simp [Token.isText] at hnt
            | code u2 => rfl
          rw [show noTT (.text v :: t2 :: rest2) =
            (!((Token.text v).isText && t2.isText) && noTT (t2 :: rest2)) from rfl]
          rw [ht2, ← hout]
          simp only [Bool.and_false, Bool.not_false, Bool.true_and]
          exact g2
      · intro w ts' h
        injection h with h1 h2
        injection h1 with h1
        exact ⟨ts1, by rw [h1]⟩
    | .code u :: ts1 =>
      rw [mergeTokensFuel_code_step]
      have hu : NoOcc q (jsTrim u) :=
        noOcc_jsTrim q u (hvals (.code u) (by simp))
      obtain ⟨c1, c2, c3⟩ := mergeChain_pres q hq hsp ts1.length ts1 (jsTrim u)
        (Nat.le_refl _) (fun t ht => hvals t (by simp [ht])) hu
      obtain ⟨g1, g2, g3⟩ := ih _ c2 (c3 (noTT_tail _ _ hnt))
      refine ⟨?_, ?_, ?_⟩
      · intro t ht
        rcases List.mem_cons.1 ht with rfl | hmem
        · exact c1
        · exact g1 t hmem
      · rw [noTT_code]
        exact g2
      · intro w ts' h
        injection h with h1 _
        cases h1

theorem rebuildCode_noOcc (q : Str) (hq : q ≠ []) (hbt : backtick ∉ q) :
    ∀ (n : Nat) (ts : List Token), ts.length ≤ n →
      (∀ t ∈ ts, NoOcc q (Token.value t)) → noTT ts = true →
      NoOcc q (rebuildCode ts) := by
  intro n
  induction n with
  | zero =>
    intro ts hlen _ _
    have : ts = [] := List.length_eq_zero.1 (Nat.le_zero.1 hlen)
    subst this
    rw [rebuildCode]
    exact noOcc_nil q hq
  | succ m ih =>
    intro ts hlen hvals hnt
    match ts with
    | [] =>
      rw [rebuildCode]
      exact noOcc_nil q hq
    | [.text v] =>
      rw [rebuildCode, rebuildCode, List.append_nil]
      exact hvals (.text v) (by simp)
    | .text v :: .text w2 :: ts2 =>
      rw [show noTT (.text v :: .text w2 :: ts2) =
        (!((Token.text v).isText && (Token.text w2).isText) &&
          noTT (.text w2 :: ts2)) from rfl] at hnt
      simp [Token.isText] at hnt
    | .text v :: .code u :: ts2 =>
      rw [rebuildCode, rebuildCode]
      apply noOcc_append_cons q _ _ backtick hq hbt (hvals (.text v) (by simp))
      apply noOcc_append_cons q _ _ backtick hq hbt (hvals (.code u) (by simp))
      apply ih ts2 (by simp only [List.length_cons] at hlen; omega)
        (fun t ht => hvals t (by simp [ht]))
      exact noTT_tail _ _ (noTT_tail _ _ hnt)
    | .code u :: ts1 =>
      rw [rebuildCode]
      apply noOcc_cons q backtick _ hq hbt
      apply noOcc_append_cons q _ _ backtick hq hbt (hvals (.code u) (by simp))
      apply ih ts1 (by simp only [List.length_cons] at hlen; omega)
        (fun t ht => hvals t (by simp [ht]))
      exact noTT_tail _ _ hnt

theorem rebuildCurly_noOcc (q : Str) (hq : q ≠ []) (hlb : lbrace ∉ q)
    (hrb : rbrace ∉ q) :
    ∀ (n : Nat) (ts : List Token), ts.length ≤ n →
      (∀ t ∈ ts, NoOcc q (Token.value t)) → noTT ts = true →
      NoOcc q (rebuildCurly ts) := by
  intro n
  induction n with
  | zero =>
    intro ts hlen _ _
    have : ts = [] := List.length_eq_zero.1 (Nat.le_zero.1 hlen)
    subst this
    rw [rebuildCurly]
    exact noOcc_nil q hq
  | succ m ih =>
    intro ts hlen hvals hnt
    match ts with
    | [] =>
      rw [rebuildCurly]
      exact noOcc_nil q hq
    | [.text v] =>
      rw [rebuildCurly, rebuildCurly, List.append_nil]
      exact hvals (.text v) (by simp)
    | .text v :: .text w2 :: ts2 =>
      rw [show noTT (.text v :: .text w2 :: ts2) =
        (!((Token.text v).isText && (Token.text w2).isText) &&
          noTT (.text w2 :: ts2)) from rfl] at hnt
      simp [Token.isText] at hnt
    | .text v :: .code u :: ts2 =>
      rw [rebuildCurly, rebuildCurly]
      apply noOcc_append_cons q _ _ lbrace hq hlb (hvals (.text v) (by simp))
      apply noOcc_cons q lbrace _ hq hlb
      apply noOcc_append_cons q _ _ rbrace hq hrb (hvals (.code u) (by simp))
      apply noOcc_cons q rbrace _ hq hrb
      apply ih ts2 (by simp only [List.length_cons] at hlen; omega)
        (fun t ht => hvals t (by simp [ht]))
      exact noTT_tail _ _ (noTT_tail _ _ hnt)
    | .code u :: ts1 =>
      rw [rebuildCurly]
      apply noOcc_cons q lbrace _ hq hlb
      apply noOcc_cons q lbrace _ hq hlb
      apply noOcc_append_cons q _ _ rbrace hq hrb (hvals (.code u) (by simp))
      apply noOcc_cons q rbrace _ hq hrb
      apply ih ts1 (by simp only [List.length_cons] at hlen; omega)
        (fun t ht => hvals t (by simp [ht]))
      exact noTT_tail _ _ hnt

theorem mergeCode_noOcc (q s : Str) (hq : q ≠ []) (hbt : backtick ∉ q)
    (hsp : spaceChar ∉ q) (h : NoOcc q s) :
    NoOcc q (mergeAdjacentCodeSpans s) := by
  unfold mergeAdjacentCodeSpans mergeTokens tokenizeCode
  obtain ⟨tv, -, tn⟩ := tokenizeCodeFuel_struct s.length s
  have hvals : ∀ t ∈ tokenizeCodeFuel s.length s, NoOcc q (Token.value t) :=
    fun t ht => noOcc_of_infix q s _ (tv t ht) h
  obtain ⟨g1, g2, -⟩ := mergeTokensFuel_pres q hq hsp
    (tokenizeCodeFuel s.length s).length _ hvals tn
  exact rebuildCode_noOcc q hq hbt _ _ (Nat.le_refl _) g1 g2

theorem mergeCurly_noOcc (q s : Str) (hq : q ≠ []) (hlb : lbrace ∉ q)
    (hrb : rbrace ∉ q) (hsp : spaceChar ∉ q) (h : NoOcc q s) :
    NoOcc q (mergeAdjacentHtmlCurlyBlocks s) := by
  unfold mergeAdjacentHtmlCurlyBlocks mergeTokens tokenizeCurly
  obtain ⟨tv, -, tn⟩ := tokenizeCurlyFuel_struct s.length s
  have hvals : ∀ t ∈ tokenizeCurlyFuel s.length s, NoOcc q (Token.value t) :=
    fun t ht => noOcc_of_infix q s _ (tv t ht) h
  obtain ⟨g1, g2, -⟩ := mergeTokensFuel_pres q hq hsp
    (tokenizeCurlyFuel s.length s).length _ hvals tn
  exact rebuildCurly_noOcc q hq hlb hrb _ _ (Nat.le_refl _) g1 g2

/-- C7: for every raw converter output and both target formats, the
post-processed mirror text contains no occurrence of either sentinel marker:
the sentinel replacements remove every occurrence without creating new ones,
and the adjacency merge rebuilds the text from sentinel-free pieces joined by
delimiter and space characters that cannot complete a sentinel. -/
theorem claim_C7 (raw format : Str) :
    ¬ SENTINEL_PRE <:+: postProcessPandocOutput raw format ∧
    ¬ SENTINEL_POST <:+: postProcessPandocOutput raw format := by
  have hPREne : SENTINEL_PRE ≠ [] := by decide
  have hPOSTne : SENTINEL_POST ≠ [] := by decide
  unfold postProcessPandocOutput
  split
  · have h1 : NoOcc SENTINEL_PRE (replaceAll SENTINEL_PRE [lbrace, lbrace] raw) := by
      unfold replaceAll
      exact replaceAll_removes SENTINEL_PRE [lbrace, lbrace] hPREne (by decide)
        (by decide) raw.length raw (Nat.le_refl _)
    have h2 : NoOcc SENTINEL_PRE (replaceAll SENTINEL_POST [rbrace, rbrace]
        (replaceAll SENTINEL_PRE [lbrace, lbrace] raw)) := by
      unfold replaceAll
      exact replaceAll_preserves SENTINEL_POST [rbrace, rbrace] SENTINEL_PRE
        hPREne (by decide) (by decide) _ _ h1
    have h3 : NoOcc SENTINEL_POST (replaceAll SENTINEL_POST [rbrace, rbrace]
        (replaceAll SENTINEL_PRE [lbrace, lbrace] raw)) := by
      unfold replaceAll
      exact replaceAll_removes SENTINEL_POST [rbrace, rbrace] hPOSTne (by decide)
        (by decide) _ _ (Nat.le_refl _)
    exact ⟨mergeCurly_noOcc _ _ hPREne (by decide) (by decide) (by decide) h2,
           mergeCurly_noOcc _ _ hPOSTne (by decide) (by decide) (by decide) h3⟩
  · have h1 : NoOcc SENTINEL_PRE (replaceAll SENTINEL_PRE [backtick] raw) := by
      unfold replaceAll
      exact replaceAll_removes SENTINEL_PRE [backtick] hPREne (by decide)
        (by decide) raw.length raw (Nat.le_refl _)
    have h2 : NoOcc SENTINEL_PRE (replaceAll SENTINEL_POST [backtick]
        (replaceAll SENTINEL_PRE [backtick] raw)) := by
      unfold replaceAll
      exact replaceAll_preserves SENTINEL_POST [backtick] SENTINEL_PRE
        hPREne (by decide) (by decide) _ _ h1
    have h3 : NoOcc SENTINEL_POST (replaceAll SENTINEL_POST [backtick]
        (replaceAll SENTINEL_PRE [backtick] raw)) := by
      unfold replaceAll
      exact replaceAll_removes SENTINEL_POST [backtick] hPOSTne (by decide)
        (by decide) _ _ (Nat.le_refl _)
    exact ⟨mergeCode_noOcc _ _ hPREne (by decide) (by decide) h2,
           mergeCode_noOcc _ _ hPOSTne (by decide) (by decide) h3⟩
end
